import Mathlib

/-!
Verification development for `ins_file_tool` (src/ins_file_tool.c), a tool that
decodes and rewrites the Insta360 metadata trailer appended to INSV/INSP media
files.  The C code is shallowly embedded: byte buffers become `List Nat`
(each element a byte value `< 256` in every run of the real program), machine
integers become `Nat`/`Int` with explicit `% 2^w` where the C arithmetic can
wrap, and fallible functions return `Option`.
-/

namespace InsFileTool

/-! ### Byte-buffer primitives

`byteAt l i` models reading the byte `l[i]` from a C buffer.  An index at or
past the end of the list models an out-of-bounds read; it yields the junk
value `0` (every theorem that depends on read values holds within bounds).
-/

def byteAt (l : List Nat) (i : Nat) : Nat := l.getD i 0

/-- Read at a signed offset, as C pointer arithmetic can produce: a negative
offset is an out-of-bounds read, modeled by the junk value `0`. -/
def byteAtI (l : List Nat) (i : Int) : Nat :=
  if 0 ≤ i then byteAt l i.toNat else 0

/-- `memcpy`-style read of `n` consecutive bytes starting at offset `i`. -/
def readBytes (l : List Nat) (i n : Nat) : List Nat :=
  (List.range n).map (fun k => byteAt l (i + k))

/-- Little-endian `uint16_t` load. -/
def readU16LE (l : List Nat) (i : Nat) : Nat :=
  byteAt l i + 256 * byteAt l (i + 1)

/-- Little-endian `uint32_t` load. -/
def readU32LE (l : List Nat) (i : Nat) : Nat :=
  byteAt l i + 256 * byteAt l (i + 1) + 65536 * byteAt l (i + 2) +
    16777216 * byteAt l (i + 3)

/-- Little-endian `uint16_t` load at a signed offset. -/
def readU16LEI (l : List Nat) (i : Int) : Nat :=
  byteAtI l i + 256 * byteAtI l (i + 1)

/-- Little-endian `uint32_t` load at a signed offset. -/
def readU32LEI (l : List Nat) (i : Int) : Nat :=
  byteAtI l i + 256 * byteAtI l (i + 1) + 65536 * byteAtI l (i + 2) +
    16777216 * byteAtI l (i + 3)

/-- Little-endian bytes of a `uint16_t` store. -/
def u16bytes (n : Nat) : List Nat := [n % 256, n / 256 % 256]

/-- Little-endian bytes of a `uint32_t` store. -/
def u32bytes (n : Nat) : List Nat :=
  [n % 256, n / 256 % 256, n / 65536 % 256, n / 16777216 % 256]

/-- `uint32_t` truncation. -/
def u32 (n : Nat) : Nat := n % 4294967296

/-- `uint32_t` subtraction (wraps modulo `2^32`). -/
def u32sub (a b : Nat) : Nat := u32 (u32 a + 4294967296 - u32 b)

/-- `uint64_t`/`size_t` subtraction (wraps modulo `2^64`). -/
def u64sub (a b : Nat) : Nat :=
  (a % 18446744073709551616 + 18446744073709551616 - b % 18446744073709551616) %
    18446744073709551616

/-- Conversion of an unsigned value to C `int` (32-bit, two's complement). -/
def i32cast (n : Nat) : Int :=
  if n % 4294967296 < 2147483648 then (n % 4294967296 : Int)
  else (n % 4294967296 : Int) - 4294967296

/-- The 32 ASCII bytes of `kInsFileSignature = "8db42d694ccc418790edff439fe026bf"`. -/
def kInsFileSignatureBytes : List Nat :=
  [56, 100, 98, 52, 50, 100, 54, 57, 52, 99, 99, 99, 52, 49, 56, 55,
   57, 48, 101, 100, 102, 102, 52, 51, 57, 102, 101, 48, 50, 54, 98, 102]

/-- `kInsFileSignatureLength` -/
def kInsFileSignatureLength : Nat := 32

/-- `kInsFileMinHeaderLength = kInsFileSignatureLength + 40 = 72` -/
def kInsFileMinHeaderLength : Nat := 72

/-- `kInsFileSpecificHeaderTagTypeOffset = 0x2A`, the stitching-offset tag type. -/
def kInsFileSpecificHeaderTagTypeOffset : Nat := 0x2A

/-! ### Specific-header tag decoder (`ins_decode_trailer_specific_header`)

One decoded tag record (`InsSpecificDataTagHeaderInfoType`): the 2-byte tag
header read from the payload (`type_code`, `data_size`) plus the offset of that
header inside the payload (`hdr_offset`); the value bytes start at
`hdr_offset + 2`.
-/

structure SpecTag where
  type_code : Nat
  data_size : Nat
  hdr_offset : Nat
  deriving Repr, DecidableEq

/-- Loop body of `ins_decode_trailer_specific_header` (source lines 213-236).
The `fuel` argument counts the remaining iterations of the `for` loop, which is
bounded by `kMaxTagsCount = 4`.  Besides the result the function accumulates
the list of payload offsets at which header bytes are read (`position` and
`position + 1` each iteration), so that claims about out-of-bounds reads can
be stated.  The returned triple on success is (decoded tags, tail offset,
tail size); the tail size is `hdr_size - position` as an `int`, which the C
code can make negative. -/
def decodeSpecAux (hdr_data : List Nat) (hdr_size : Int) :
    Nat → Nat → List SpecTag → List Nat →
    (Option (List SpecTag × Nat × Int)) × List Nat
  | 0, position, acc, reads => (some (acc, position, hdr_size - position), reads)
  | fuel + 1, position, acc, reads =>
    let t := byteAt hdr_data position
    let d := byteAt hdr_data (position + 1)
    let reads' := reads ++ [position, position + 1]
    if (d : Int) > hdr_size - (position : Int) then
      (none, reads')
    else
      let acc' := acc ++ [⟨t, d, position⟩]
      let pos' := position + 2 + d
      if (pos' : Int) ≥ hdr_size then
        (some (acc', pos', hdr_size - pos'), reads')
      else
        decodeSpecAux hdr_data hdr_size fuel pos' acc' reads'

/-- `ins_decode_trailer_specific_header` (source lines 200-242): decode up to
4 tag records from a specific-info entry payload; on success also return the
tail (offset into the payload and its `int` size).  The second component is
the trace of payload offsets at which bytes were read. -/
def ins_decode_trailer_specific_header (hdr_data : List Nat) (hdr_size : Int) :
    (Option (List SpecTag × Nat × Int)) × List Nat :=
  decodeSpecAux hdr_data hdr_size 4 0 [] []

/-! ### Tag mutator (`ins_change_stitching_offset`) -/

/-- The bytes emitted for one decoded tag by the rebuild loop of
`ins_change_stitching_offset` (source lines 371-391): a stitching-offset tag
is re-emitted with the new value (its `data_size` byte is the `int → uint8_t`
truncation of `strlen(new_offset)`), any other tag is copied verbatim from the
original payload. -/
def serializeTagBlock (p : List Nat) (newOffset : List Nat) (t : SpecTag) : List Nat :=
  if t.type_code = kInsFileSpecificHeaderTagTypeOffset then
    [t.type_code, newOffset.length % 256] ++ newOffset
  else
    [t.type_code, t.data_size] ++ readBytes p (t.hdr_offset + 2) t.data_size

/-- `ins_change_stitching_offset` (source lines 333-412).  `p` is the buffer
`in_trailer_hdr` points to (it may extend past `hdr_size`: the C caller passes
a pointer into the larger trailer buffer), `s` is `in_trailer_hdr_size`, and
`newOffset` the bytes of the `new_offset` string.  Returns the output buffer
contents and the reported output size, or `none` on decode failure (`-3`) and
on the executions that are undefined in C (a negative `tail_size` makes the
final `memcpy` size wrap to a huge `size_t`; a negative `new_header_size`
does the same in `malloc`).  The C writes the byte stream sequentially from
offset 0 of a `new_header_size`-byte allocation: the buffer contents are the
first `new_header_size` bytes of that stream (zero-filled by `memset` if the
stream is shorter); bytes of the stream beyond the allocation are a heap
overflow in C but do not land in the reported buffer. -/
def ins_change_stitching_offset (p : List Nat) (s : Int) (newOffset : List Nat) :
    Option (List Nat × Int) :=
  match (ins_decode_trailer_specific_header p s).1 with
  | none => none
  | some (ts, tailoff, tailsz) =>
    let cur : Nat :=
      ((ts.find? (fun t => t.type_code = kInsFileSpecificHeaderTagTypeOffset)).map
        SpecTag.data_size).getD 0
    let nlen := newOffset.length
    let newsize : Int := s - (cur : Int) + (nlen : Int)
    if tailsz < 0 then none
    else if newsize < 0 then none
    else
      let body := (ts.map (serializeTagBlock p newOffset)).flatten
      let ins :=
        if cur = 0 then
          [kInsFileSpecificHeaderTagTypeOffset, nlen % 256] ++ newOffset
        else []
      let stream := body ++ ins ++ readBytes p tailoff tailsz.toNat
      some (stream.take newsize.toNat ++
              List.replicate (newsize.toNat - stream.length) 0, newsize)

/-! ### Trailer entry decoder (`ins_decode_trailer_data`) -/

/-- One discovered trailer entry (`InsTrailerEntryHeaderInfoType` together with
the fields of the `InsFileTrailerEntryHeaderType` it points at):
`type`/`length` as read from the entry header, and `offset_to_data`, the
`uint64_t` offset of the entry payload inside the trailer buffer, computed (as
in the C) with `uint32_t` wraparound for the first two subtractions and
`size_t` wraparound for the last. -/
structure TrailerEntry where
  type : Nat
  length : Nat
  offset_to_data : Nat
  deriving Repr, DecidableEq

/-- Outcome of the backward entry walk.  On error (`-1`) the C function has
still pushed the discovered entries into the caller's vector, so both `ok` and
`err` carry them.  `diverge` marks runs whose `while` loop has not terminated
within the available fuel (the C loop can run forever, e.g. when an entry
header's `length + 6` wraps to `0 mod 2^32`). -/
inductive TDResult where
  | ok (entries : List TrailerEntry) : TDResult
  | err (entries : List TrailerEntry) : TDResult
  | diverge (entries : List TrailerEntry) : TDResult
  deriving Repr, DecidableEq

/-- The `while` loop of `ins_decode_trailer_data` (source lines 260-271) plus
the post-check (line 275).  `pos` is `trailer_read_pos` (a `uint32_t`), and
the loop advances it by `length + 6` modulo `2^32`. -/
def decodeTrailerAux (data : List Nat) (trailer_len : Nat) :
    Nat → Nat → List TrailerEntry → TDResult
  | 0, pos, acc =>
    if pos < trailer_len then .diverge acc
    else if pos = trailer_len then .ok acc
    else .err acc
  | fuel + 1, pos, acc =>
    if pos < trailer_len then
      let off : Int := (trailer_len : Int) - (pos : Int) - 6
      let ty := readU16LEI data off
      let ln := readU32LEI data (off + 2)
      let dOff := u64sub (u32sub (u32sub trailer_len pos) ln) 6
      decodeTrailerAux data trailer_len fuel (u32 (pos + ln + 6))
        (acc ++ [⟨ty, ln, dOff⟩])
    else if pos = trailer_len then .ok acc
    else .err acc

/-- `ins_decode_trailer_data` (source lines 251-279): walk the trailer buffer
backward from the minimal-header boundary (cursor starts at 72), collecting
entry headers, and fail unless the cursor lands exactly on `trailer_len`. -/
def ins_decode_trailer_data (data : List Nat) (trailer_len : Nat) (fuel : Nat) :
    TDResult :=
  decodeTrailerAux data trailer_len fuel kInsFileMinHeaderLength []

/-! ### Forward serialization of a trailer

A well-formed trailer is, from its first byte to its last: the entries in
forward file order (each as payload bytes followed by its 6-byte
`{type:u16, length:u32}` header), then 32 bytes of zero padding, then the
8-byte `{trailer_len:u32, trailer_version:u32}` header, then the 32-byte
signature.  These definitions build such a buffer from an abstract entry list
`fs : List (Nat × List Nat)` (type, payload) in forward order; they are the
specification-side counterpart against which the decoder and the rewrite
driver are compared.
-/

/-- The 6 bytes of an `InsFileTrailerEntryHeaderType`. -/
def entryHdrBytes (t len : Nat) : List Nat := u16bytes t ++ u32bytes len

/-- Forward bytes of the entry region. -/
def serializeEntries (fs : List (Nat × List Nat)) : List Nat :=
  (fs.map (fun e => e.2 ++ entryHdrBytes e.1 e.2.length)).flatten

/-- Total size of the entry region: each entry contributes `payload + 6`. -/
def totalEntriesLen (fs : List (Nat × List Nat)) : Nat :=
  (fs.map (fun e => e.2.length + 6)).sum

/-- A full well-formed trailer buffer with version `v`; its stored
`trailer_len` is its own length, `totalEntriesLen fs + 72`. -/
def serializeTrailer (fs : List (Nat × List Nat)) (v : Nat) : List Nat :=
  serializeEntries fs ++ List.replicate 32 0 ++
    u32bytes (totalEntriesLen fs + 72) ++ u32bytes v ++ kInsFileSignatureBytes

/-- The entry list the backward walk discovers, given the entries in
discovery order (i.e. `fs.reverse`): the first discovered entry is the last
forward entry, whose payload starts after all earlier forward blocks, which
are exactly the remaining entries to discover. -/
def discEntries : List (Nat × List Nat) → List TrailerEntry
  | [] => []
  | (t, p) :: rest => ⟨t, p.length, totalEntriesLen rest⟩ :: discEntries rest

/-- Expected decode result for a serialized trailer (discovery order). -/
def entriesOf (fs : List (Nat × List Nat)) : List TrailerEntry :=
  discEntries fs.reverse

/-! ### Trailer rebuild and rewrite pipeline (`run_change_stitching_offset`) -/

/-- The trailer bytes emitted by the rebuild phase of
`run_change_stitching_offset` (source lines 621-663): iterate the discovered
entries in reverse discovery order; for each, write its payload (the rebuilt
specific buffer `newSpec` for type `0x0101`, otherwise `length` bytes copied
from the input trailer at `offset_to_data`) followed by its 6-byte header
whose `length` field is the emitted payload size; then 32 zero bytes, the
trailer header `{total + 72, version}`, and the signature.  `rebuildTotal`
is `total_new_trailer_size`, the accumulated `length + 6` over all emitted
entries, using the mutated entry's new length. -/
def rebuildTotal (entries : List TrailerEntry) (newSpec : List Nat) : Nat :=
  (entries.map (fun e =>
    (if e.type = 0x0101 then newSpec.length else e.length) + 6)).sum

/-- See `rebuildTotal`: the entry-region bytes the rebuild loop writes,
iterating the discovered entries in reverse discovery order. -/
def rebuildBody (T : List Nat) (entries : List TrailerEntry)
    (newSpec : List Nat) : List Nat :=
  (entries.reverse.map (fun e =>
    if e.type = 0x0101 then newSpec ++ entryHdrBytes e.type newSpec.length
    else readBytes T e.offset_to_data e.length ++
      entryHdrBytes e.type e.length)).flatten

/-- See `rebuildTotal`: the full byte stream the rebuild phase writes. -/
def rebuildTrailerBytes (T : List Nat) (entries : List TrailerEntry)
    (newSpec : List Nat) (ver : Nat) : List Nat :=
  rebuildBody T entries newSpec ++ List.replicate 32 0 ++
    u32bytes (rebuildTotal entries newSpec + 72) ++
    u32bytes ver ++ kInsFileSignatureBytes

/-- Success projection of the entry walk: the driver proceeds only when
`ins_decode_trailer_data` returned 0. -/
def tdOk? : TDResult → Option (List TrailerEntry)
  | .ok es => some es
  | _ => none

/-- One step of the driver's per-entry loop (source lines 545-570): for an
entry of type `0x0101` run `ins_change_stitching_offset` on its payload (a
pointer into the trailer buffer `T`, with the entry's `length`, a `uint32_t`
passed through C `int`), aborting the whole run on failure (`-7`) and
otherwise keeping the (last) rebuilt buffer. -/
def mutateStep (T : List Nat) (newOffset : List Nat)
    (st : Option (Option (List Nat))) (e : TrailerEntry) :
    Option (Option (List Nat)) :=
  match st with
  | none => none
  | some cur =>
    if e.type = 0x0101 then
      match ins_change_stitching_offset (T.drop e.offset_to_data)
          (i32cast e.length) newOffset with
      | none => none
      | some (buf, _) => some (some buf)
    else some cur

/-- The trailer-to-trailer pipeline of `run_change_stitching_offset` (source
lines 506-663), restricted to the trailer region (the driver streams the
leading media bytes to the output verbatim; that write phase is modeled
separately by `driverWritePhase`).  Input `T` is the trailer buffer that
`ins_read_allocate_trailer` produced: by construction its length equals the
stored `trailer_len`, its version sits at offset `T.length - 36`, and the
signature check of `ins_find_and_read_minimal_header` compares its last 32
bytes.  `none` models every aborted or undefined run: signature mismatch
(`-1`), decode failure (`-4`), mutation failure (`-7`), a diverging walk,
and the undefined use of the uninitialized buffer when no `0x0101` entry
exists. -/
def run_change_stitching_offset (T : List Nat) (newOffset : List Nat)
    (fuel : Nat) : Option (List Nat) :=
  if T.length < kInsFileMinHeaderLength then none
  else if T.drop (T.length - 32) ≠ kInsFileSignatureBytes then none
  else
    (tdOk? (ins_decode_trailer_data T T.length fuel)).bind (fun entries =>
      (entries.foldl (mutateStep T newOffset) (some none)).bind (fun cur =>
        cur.map (fun newSpec =>
          rebuildTrailerBytes T entries newSpec
            (readU32LE T (T.length - 36)))))

/-- Reader model for checking a rewritten file, following the decode path of
`run_show_info` (source lines 437-489): decode the trailer, and for each
specific-info entry (type `0x0101`) decode its payload's tags; return, for
every stitching-offset tag (type code `0x2A`), its declared `data_size` and
its value bytes as the reader would print them.  `none` if the trailer or any
specific-info payload fails to decode. -/
def offsetTagValuesOfTrailer (T : List Nat) (fuel : Nat) :
    Option (List (Nat × List Nat)) :=
  (tdOk? (ins_decode_trailer_data T T.length fuel)).bind (fun entries =>
    (entries.filter (fun e => e.type = 0x0101)).foldl
      (fun acc e => acc.bind (fun vs =>
        ((ins_decode_trailer_specific_header (T.drop e.offset_to_data)
            (i32cast e.length)).1).map (fun r =>
          vs ++ (r.1.filter
              (fun t => t.type_code = kInsFileSpecificHeaderTagTypeOffset)).map
            (fun t => (t.data_size,
              readBytes (T.drop e.offset_to_data) (t.hdr_offset + 2)
                t.data_size)))))
      (some []))

/-! ### Write-phase model of the driver (`run_change_stitching_offset`,
source lines 587-675)

File I/O is modeled with explicit per-call write counts: `writeCounts.getD i`
is the number of bytes the `i`-th `fwrite` call actually accepts (capped at
the requested size; absent entries mean full writes), and `readCounts` plays
the same role for the media-copy `fread` calls.  The media-copy loop (lines
593-611) checks both counts per chunk and aborts with `-6`; every `fwrite` of
the trailer-rebuild phase (lines 636-663: entry payloads, entry headers, the
32 padding bytes, the trailer header, the signature) discards its return
value.  `trailerParts` abstracts the sequence of buffers those unchecked
calls write.
-/

/-- Bytes accepted by the `i`-th `fwrite` of `req` bytes. -/
def fwriteCount (writeCounts : List Nat) (i req : Nat) : Nat :=
  min (writeCounts.getD i req) req

/-- One `fwrite` call: appends the accepted prefix to the output file and
returns the new (file contents, next write index) state and the count. -/
def writeStep (writeCounts : List Nat) (st : List Nat × Nat) (buf : List Nat) :
    (List Nat × Nat) × Nat :=
  let n := fwriteCount writeCounts st.2 buf.length
  ((st.1 ++ buf.take n, st.2 + 1), n)

/-- The media-copy loop (source lines 593-611): per chunk, a short `fread`
or a short `fwrite` sets `error` and breaks.  Returns the file/write-index
state and the `error` flag. -/
def copyMediaLoop (readCounts writeCounts : List Nat) :
    List (List Nat) → (List Nat × Nat) → Nat → (List Nat × Nat) × Bool
  | [], st, _ => (st, false)
  | c :: cs, st, rIdx =>
    if min (readCounts.getD rIdx c.length) c.length ≠ c.length then (st, true)
    else
      let r := writeStep writeCounts st c
      if r.2 ≠ c.length then (r.1, true)
      else copyMediaLoop readCounts writeCounts cs r.1 (rIdx + 1)

/-- The write phase of `run_change_stitching_offset`: copy the media chunks
(aborting with `-6` on any short transfer, before any trailer bytes are
written), then emit every trailer part with unchecked `fwrite` calls and
return `0`.  Result: (exit code, output file contents). -/
def driverWritePhase (mediaChunks trailerParts : List (List Nat))
    (readCounts writeCounts : List Nat) : Int × List Nat :=
  match copyMediaLoop readCounts writeCounts mediaChunks ([], 0) 0 with
  | (st, true) => (-6, st.1)
  | (st, false) =>
    let fin := trailerParts.foldl (fun s buf => (writeStep writeCounts s buf).1) st
    (0, fin.1)

/-! ### Derived definitions used by the verification -/

/-- The original bytes a decoded tag occupies in the payload: its 2-byte
header followed by its `data_size` value bytes. -/
def tagBlock (p : List Nat) (t : SpecTag) : List Nat :=
  [t.type_code, t.data_size] ++ readBytes p (t.hdr_offset + 2) t.data_size

/-- Total bytes spanned by a list of decoded tags. -/
def tagsSpan (ts : List SpecTag) : Nat := (ts.map (fun t => 2 + t.data_size)).sum

/-- One step of the trailer walk's cursor: `trailer_read_pos += length + 6`
in `uint32_t` arithmetic. -/
def entryStep (pos : Nat) (e : TrailerEntry) : Nat := u32 (pos + e.length + 6)

/-- The cumulative consumed length of a discovered entry sequence, starting
at the 72-byte minimal header and adding `6 + length` per entry, in the
`uint32_t` arithmetic of `trailer_read_pos`. -/
def consumedLen (es : List TrailerEntry) : Nat :=
  es.foldl entryStep kInsFileMinHeaderLength

/-- Whether every media chunk starting at transfer index `k` is read and
written in full (`getD` defaults model `fread`/`fwrite` returning the full
count when no short count is prescribed). -/
def mediaOkB (readCounts writeCounts : List Nat) : Nat → List (List Nat) → Bool
  | _, [] => true
  | k, c :: cs =>
    (min (readCounts.getD k c.length) c.length == c.length &&
     min (writeCounts.getD k c.length) c.length == c.length) &&
    mediaOkB readCounts writeCounts (k + 1) cs

/-- Abstract tag descriptors (type byte, size byte, value bytes) and their
serialization, used to reason about re-decoding a rebuilt payload. -/
def serializeWs : List (Nat × Nat × List Nat) → List Nat
  | [] => []
  | (tc, d, val) :: rest => ([tc, d] ++ val) ++ serializeWs rest

/-- Byte length of the serialization of a descriptor list. -/
def wsLen : List (Nat × Nat × List Nat) → Nat
  | [] => 0
  | (_, d, _) :: rest => 2 + d + wsLen rest

/-- The tags the decoder recovers from a serialized descriptor list laid out
starting at payload offset `pos`. -/
def specTagsOf : List (Nat × Nat × List Nat) → Nat → List SpecTag
  | [], _ => []
  | (tc, d, _) :: rest, pos => ⟨tc, d, pos⟩ :: specTagsOf rest (pos + 2 + d)

/-- The descriptor list matching what `ins_change_stitching_offset` emits for
the decoded tags `ts` of a payload `p` with new offset value `X`. -/
def wsOfTags (p : List Nat) (X : List Nat) (ts : List SpecTag) :
    List (Nat × Nat × List Nat) :=
  ts.map (fun t =>
    if t.type_code = kInsFileSpecificHeaderTagTypeOffset then
      (t.type_code, X.length % 256, X)
    else
      (t.type_code, t.data_size, readBytes p (t.hdr_offset + 2) t.data_size))

/-- Replace the payload of every specific-info (type `0x0101`) entry. -/
def replaceSpec (fs : List (Nat × List Nat)) (newSpec : List Nat) :
    List (Nat × List Nat) :=
  fs.map (fun e => if e.1 = 0x0101 then (e.1, newSpec) else e)

/-! ### Concrete buffers used as counterexample / witness inputs -/

/-- A 78-byte trailer buffer whose single-step walk wraps `uint32_t`:
entry 1 (at offset 0) declares length `0xFFFFFFB2`, entry 2 (at offset 72)
declares length 72; the walk's cursor goes 72 → 0 → 78 = `trailer_len`. -/
def cx5buf : List Nat :=
  [0, 0, 0xB2, 0xFF, 0xFF, 0xFF] ++ List.replicate 66 0 ++ [0, 0, 72, 0, 0, 0]

/-- Forward entry list of a trailer whose specific-info payload carries a
zero-length stitching-offset tag (type `0x2A`, size 0) among four tags,
followed by a 1-byte tail. -/
def cx1fs : List (Nat × List Nat) :=
  [(0x0101, [0x0A, 0, 0x12, 0, 0x1A, 0, 0x2A, 0, 153])]

/-- The serialized trailer for `cx1fs`. -/
def cx1T : List Nat := serializeTrailer cx1fs 3

/-- Forward entry list of a trailer whose specific-info payload has a single
serial tag and no stitching-offset tag (insertion path). -/
def cx7fs : List (Nat × List Nat) := [(0x0101, [0x0A, 1, 65])]

/-- The serialized trailer for `cx7fs`. -/
def cx7T : List Nat := serializeTrailer cx7fs 3

/-- Forward entry list of a well-formed trailer with an unknown entry and a
specific-info entry whose four tags include a 2-byte stitching offset
(value `"BC"`) and whose tail is the byte 99. -/
def rtfs : List (Nat × List Nat) :=
  [(0x0200, [9, 9, 9]), (0x0101, [0x0A, 1, 65, 0x2A, 2, 66, 67, 0x1A, 0, 0x12, 1, 70, 99])]

/-- The serialized trailer for `rtfs`. -/
def rtT : List Nat := serializeTrailer rtfs 3

/-! ### Basic lemmas about the byte primitives -/

theorem byteAt_lt (l : List Nat) (i : Nat) (h : ∀ b ∈ l, b < 256) :
    byteAt l i < 256 := by
  unfold byteAt
  rcases Nat.lt_or_ge i l.length with hi | hi
  · rw [List.getD_eq_getElem l 0 hi]
    exact h _ (List.getElem_mem hi)
  · rw [List.getD_eq_default l 0 hi]
    omega

theorem byteAt_append_right (A B : List Nat) (i : Nat) :
    byteAt (A ++ B) (A.length + i) = byteAt B i := by
  unfold byteAt
  rw [List.getD_append_right A B 0 _ (Nat.le_add_right _ _)]
  congr 1
  omega

theorem byteAt_append_left (A B : List Nat) (i : Nat) (h : i < A.length) :
    byteAt (A ++ B) i = byteAt A i := by
  unfold byteAt
  exact List.getD_append A B 0 i h

theorem byteAtI_natCast (l : List Nat) (n : Nat) : byteAtI l (n : Int) = byteAt l n := by
  simp [byteAtI]

theorem readU16LEI_natCast (l : List Nat) (n : Nat) :
    readU16LEI l (n : Int) = readU16LE l n := by
  unfold readU16LEI readU16LE
  rw [show ((n : Int) + 1) = ((n + 1 : Nat) : Int) by push_cast; ring]
  rw [byteAtI_natCast, byteAtI_natCast]

theorem readU32LEI_natCast (l : List Nat) (n : Nat) :
    readU32LEI l (n : Int) = readU32LE l n := by
  unfold readU32LEI readU32LE
  rw [show ((n : Int) + 1) = ((n + 1 : Nat) : Int) by push_cast; ring,
      show ((n : Int) + 2) = ((n + 2 : Nat) : Int) by push_cast; ring,
      show ((n : Int) + 3) = ((n + 3 : Nat) : Int) by push_cast; ring]
  rw [byteAtI_natCast, byteAtI_natCast, byteAtI_natCast, byteAtI_natCast]

theorem readBytes_length (l : List Nat) (i n : Nat) : (readBytes l i n).length = n := by
  simp [readBytes]

theorem readBytes_zero (l : List Nat) (i : Nat) : readBytes l i 0 = [] := rfl

theorem readBytes_add (l : List Nat) (i a b : Nat) :
    readBytes l i (a + b) = readBytes l i a ++ readBytes l (i + a) b := by
  unfold readBytes
  rw [List.range_add, List.map_append, List.map_map]
  congr 1
  apply List.map_congr_left
  intro k _
  simp only [Function.comp_apply]
  congr 1
  omega

theorem readBytes_two (l : List Nat) (i : Nat) :
    readBytes l i 2 = [byteAt l i, byteAt l (i + 1)] := by
  show List.map _ (List.range 2) = _
  rw [show List.range 2 = [0, 1] from rfl]
  simp

theorem readBytes_getD (l : List Nat) (i n j : Nat) (hj : j < n) :
    byteAt (readBytes l i n) j = byteAt l (i + j) := by
  unfold byteAt readBytes
  rw [List.getD_eq_getElem _ 0 (by simpa using hj)]
  simp [byteAt]

theorem readBytes_eq_drop_take (l : List Nat) (i n : Nat) (h : i + n ≤ l.length) :
    readBytes l i n = (l.drop i).take n := by
  apply List.ext_getElem
  · rw [readBytes_length, List.length_take, List.length_drop]
    omega
  · intro j h1 h2
    rw [List.getElem_take, List.getElem_drop]
    unfold readBytes
    simp only [List.getElem_map, List.getElem_range]
    unfold byteAt
    rw [readBytes_length] at h1
    rw [List.getD_eq_getElem l 0 (by omega)]

theorem readBytes_slice (A p B : List Nat) :
    readBytes (A ++ (p ++ B)) A.length p.length = p := by
  rw [readBytes_eq_drop_take _ _ _ (by simp only [List.length_append]; omega)]
  rw [List.drop_left, List.take_left]

theorem readBytes_prefix_all (p B : List Nat) :
    readBytes (p ++ B) 0 p.length = p := by
  have := readBytes_slice [] p B
  simpa using this

theorem readU16LE_append (A B : List Nat) :
    readU16LE (A ++ B) A.length = readU16LE B 0 := by
  unfold readU16LE
  rw [show A.length + 1 = A.length + 1 from rfl]
  rw [show byteAt (A ++ B) A.length = byteAt B 0 by
        have := byteAt_append_right A B 0; simpa using this]
  rw [byteAt_append_right A B 1]

theorem readU32LE_append (A B : List Nat) :
    readU32LE (A ++ B) A.length = readU32LE B 0 := by
  unfold readU32LE
  rw [show byteAt (A ++ B) A.length = byteAt B 0 by
        have := byteAt_append_right A B 0; simpa using this]
  rw [byteAt_append_right A B 1, byteAt_append_right A B 2, byteAt_append_right A B 3]

theorem readU16LE_u16bytes (t : Nat) (B : List Nat) :
    readU16LE (u16bytes t ++ B) 0 = t % 65536 := by
  unfold readU16LE u16bytes byteAt
  simp only [List.cons_append, List.getD_cons_zero, List.getD_cons_succ]
  omega

theorem readU32LE_u32bytes (n : Nat) (B : List Nat) :
    readU32LE (u32bytes n ++ B) 0 = n % 4294967296 := by
  unfold readU32LE u32bytes byteAt
  simp only [List.cons_append, List.getD_cons_zero, List.getD_cons_succ]
  omega

theorem u32_eq_of_lt (n : Nat) (h : n < 4294967296) : u32 n = n := Nat.mod_eq_of_lt h

theorem u32sub_exact (a b : Nat) (hb : b ≤ a) (ha : a < 4294967296) :
    u32sub a b = a - b := by
  unfold u32sub u32
  omega

theorem u64sub_exact (a b : Nat) (hb : b ≤ a) (ha : a < 18446744073709551616) :
    u64sub a b = a - b := by
  unfold u64sub
  omega

theorem i32cast_eq_of_lt (n : Nat) (h : n < 2147483648) : i32cast n = (n : Int) := by
  unfold i32cast
  rw [if_pos (show n % 4294967296 < 2147483648 by omega)]
  omega

/-! ### Lemmas about the specific-header tag decoder -/

theorem decodeSpecAux_zero (p : List Nat) (s : Int) (pos : Nat) (acc : List SpecTag)
    (reads : List Nat) :
    decodeSpecAux p s 0 pos acc reads = (some (acc, pos, s - pos), reads) := rfl

theorem decodeSpecAux_succ (p : List Nat) (s : Int) (fuel pos : Nat)
    (acc : List SpecTag) (reads : List Nat) :
    decodeSpecAux p s (fuel + 1) pos acc reads =
      if (byteAt p (pos + 1) : Int) > s - (pos : Int) then
        (none, reads ++ [pos, pos + 1])
      else if ((pos + 2 + byteAt p (pos + 1) : Nat) : Int) ≥ s then
        (some (acc ++ [⟨byteAt p pos, byteAt p (pos + 1), pos⟩],
               pos + 2 + byteAt p (pos + 1),
               s - ((pos + 2 + byteAt p (pos + 1) : Nat) : Int)),
         reads ++ [pos, pos + 1])
      else
        decodeSpecAux p s fuel (pos + 2 + byteAt p (pos + 1))
          (acc ++ [⟨byteAt p pos, byteAt p (pos + 1), pos⟩])
          (reads ++ [pos, pos + 1]) := rfl

theorem tagBlock_eq_readBytes (p : List Nat) (t : SpecTag)
    (h1 : t.type_code = byteAt p t.hdr_offset)
    (h2 : t.data_size = byteAt p (t.hdr_offset + 1)) :
    tagBlock p t = readBytes p t.hdr_offset (2 + t.data_size) := by
  rw [readBytes_add p t.hdr_offset 2 t.data_size, readBytes_two]
  unfold tagBlock
  rw [h1, h2]

/-- Characterization of every successful run of the tag-decode loop: the
final tag list extends the accumulator by at most `fuel` tags, the final
cursor is the starting cursor plus the span of the new tags, the tail size is
`hdr_size - cursor`, fewer than `fuel` new tags means the cursor reached the
payload size, each decoded tag holds the two header bytes at its recorded
offset and passed the bound check `data_size ≤ hdr_size - hdr_offset`, and
the new tags' blocks tile the payload bytes from the starting cursor to the
final cursor. -/
theorem decodeSpecAux_ok (p : List Nat) (s : Int) :
    ∀ (fuel pos : Nat) (acc : List SpecTag) (reads : List Nat)
      (ts : List SpecTag) (off : Nat) (tsz : Int),
      (decodeSpecAux p s fuel pos acc reads).1 = some (ts, off, tsz) →
      ∃ new, ts = acc ++ new ∧
        new.length ≤ fuel ∧
        off = pos + tagsSpan new ∧
        tsz = s - (off : Int) ∧
        (new.length < fuel → s ≤ (off : Int)) ∧
        (∀ t ∈ new, t.type_code = byteAt p t.hdr_offset ∧
          t.data_size = byteAt p (t.hdr_offset + 1) ∧
          (t.data_size : Int) ≤ s - (t.hdr_offset : Int) ∧ pos ≤ t.hdr_offset ∧
          t.hdr_offset + 2 + t.data_size ≤ off) ∧
        (new.map (tagBlock p)).flatten = readBytes p pos (tagsSpan new) := by
  intro fuel
  induction fuel with
  | zero =>
    intro pos acc reads ts off tsz h
    rw [decodeSpecAux_zero] at h
    simp only [Option.some.injEq, Prod.mk.injEq] at h
    obtain ⟨h1, h2, h3⟩ := h
    refine ⟨[], by simp [h1.symm], by simp, ?_, by omega, by omega, by simp, ?_⟩
    · simp [tagsSpan, h2.symm]
    · simp [tagsSpan, readBytes_zero]
  | succ n ih =>
    intro pos acc reads ts off tsz h
    rw [decodeSpecAux_succ] at h
    by_cases hck : (byteAt p (pos + 1) : Int) > s - (pos : Int)
    · rw [if_pos hck] at h
      simp at h
    · rw [if_neg hck] at h
      set d := byteAt p (pos + 1) with hd
      set tg : SpecTag := ⟨byteAt p pos, d, pos⟩ with htg
      by_cases hstop : ((pos + 2 + d : Nat) : Int) ≥ s
      · rw [if_pos hstop] at h
        simp only [Option.some.injEq, Prod.mk.injEq] at h
        obtain ⟨h1, h2, h3⟩ := h
        refine ⟨[tg], h1.symm, by simp, ?_, ?_, ?_, ?_, ?_⟩
        · simp [tagsSpan, htg, h2.symm]
          omega
        · rw [← h3, ← h2]
        · intro _
          rw [← h2]
          exact hstop
        · intro t ht
          simp only [List.mem_singleton] at ht
          subst ht
          refine ⟨rfl, rfl, by simp only [htg]; omega, by simp [htg], ?_⟩
          simp only [htg]
          omega
        · simp only [List.map_cons, List.map_nil, List.flatten_cons,
            List.flatten_nil, List.append_nil]
          rw [tagBlock_eq_readBytes p tg rfl rfl]
          simp [tagsSpan, htg]
      · rw [if_neg hstop] at h
        obtain ⟨new', hts, hlen, hoff, htsz, hfew, htags, hblocks⟩ :=
          ih (pos + 2 + d) (acc ++ [tg]) (reads ++ [pos, pos + 1]) ts off tsz h
        refine ⟨tg :: new', by simpa using hts, by simpa using hlen, ?_, htsz, ?_, ?_, ?_⟩
        · rw [hoff]
          simp [tagsSpan, htg]
          omega
        · intro hl
          exact hfew (by simpa using hl)
        · intro t ht
          rcases List.mem_cons.mp ht with h1 | h1
          · subst h1
            refine ⟨rfl, rfl, by simp only [htg]; omega, by simp [htg], ?_⟩
            simp only [htg]
            omega
          · obtain ⟨a1, a2, a3, a4, a5⟩ := htags t h1
            exact ⟨a1, a2, a3, by omega, a5⟩
        · have hspan : tagsSpan (tg :: new') = 2 + d + tagsSpan new' := by
            simp [tagsSpan, htg]
          have hblk : tagBlock p tg = readBytes p pos (2 + d) := by
            rw [tagBlock_eq_readBytes p tg rfl rfl]
          rw [hspan, readBytes_add p pos (2 + d) (tagsSpan new')]
          simp only [List.map_cons, List.flatten_cons]
          rw [hblk, hblocks, Nat.add_assoc]

/-- Every payload offset the tag-decode loop reads is at most `max hdr_size 1`:
the loop reads only 2-byte tag headers, at offset pairs whose first element is
either 0 (first iteration) or a cursor strictly below `hdr_size`. -/
theorem decodeSpecAux_reads (p : List Nat) (s : Int) :
    ∀ (fuel pos : Nat) (acc : List SpecTag) (reads : List Nat),
      ((pos : Int) < s ∨ pos = 0) →
      ∀ r ∈ (decodeSpecAux p s fuel pos acc reads).2,
        r ∈ reads ∨ (r : Int) ≤ max s 1 := by
  intro fuel
  induction fuel with
  | zero =>
    intro pos acc reads _ r hr
    rw [decodeSpecAux_zero] at hr
    exact Or.inl hr
  | succ n ih =>
    intro pos acc reads hpos r hr
    rw [decodeSpecAux_succ] at hr
    have hb : ∀ r', r' ∈ reads ++ [pos, pos + 1] → r' ∈ reads ∨ (r' : Int) ≤ max s 1 := by
      intro r' hr'
      rcases List.mem_append.mp hr' with h1 | h1
      · exact Or.inl h1
      · right
        have h2 : r' = pos ∨ r' = pos + 1 := by simpa using h1
        rcases hpos with hp | hp <;> omega
    by_cases hck : (byteAt p (pos + 1) : Int) > s - (pos : Int)
    · rw [if_pos hck] at hr
      exact hb r hr
    · rw [if_neg hck] at hr
      by_cases hstop : ((pos + 2 + byteAt p (pos + 1) : Nat) : Int) ≥ s
      · rw [if_pos hstop] at hr
        exact hb r hr
      · rw [if_neg hstop] at hr
        rcases ih _ _ _ (Or.inl (by push_cast at hstop ⊢; omega)) r hr with h1 | h1
        · exact hb r h1
        · exact Or.inr h1

/-- Two buffers that agree below `hdr_size` produce the same successful decode
whenever the final cursor stays within `hdr_size` (all header reads then occur
strictly below `hdr_size`). -/
theorem decodeSpecAux_agree (p q : List Nat) (s : Int)
    (hb : ∀ j : Nat, (j : Int) < s → byteAt p j = byteAt q j) :
    ∀ (fuel pos : Nat) (acc : List SpecTag) (r₁ r₂ : List Nat)
      (ts : List SpecTag) (off : Nat) (tsz : Int),
      (decodeSpecAux p s fuel pos acc r₁).1 = some (ts, off, tsz) →
      (off : Int) ≤ s →
      (decodeSpecAux q s fuel pos acc r₂).1 = some (ts, off, tsz) := by
  intro fuel
  induction fuel with
  | zero =>
    intro pos acc r₁ r₂ ts off tsz h _
    rw [decodeSpecAux_zero] at h ⊢
    exact h
  | succ n ih =>
    intro pos acc r₁ r₂ ts off tsz h hle
    rw [decodeSpecAux_succ] at h
    by_cases hck : (byteAt p (pos + 1) : Int) > s - (pos : Int)
    · rw [if_pos hck] at h
      simp at h
    · rw [if_neg hck] at h
      by_cases hstop : ((pos + 2 + byteAt p (pos + 1) : Nat) : Int) ≥ s
      · rw [if_pos hstop] at h
        simp only [Option.some.injEq, Prod.mk.injEq] at h
        obtain ⟨h1, h2, h3⟩ := h
        have hoff' : ((pos + 2 + byteAt p (pos + 1) : Nat) : Int) ≤ s := by
          rw [h2]
          exact hle
        have hp0 : byteAt p pos = byteAt q pos := hb pos (by push_cast at hoff' ⊢; omega)
        have hp1 : byteAt p (pos + 1) = byteAt q (pos + 1) :=
          hb (pos + 1) (by push_cast at hoff' ⊢; omega)
        rw [decodeSpecAux_succ, ← hp0, ← hp1, if_neg hck, if_pos hstop]
        simp only [Option.some.injEq, Prod.mk.injEq]
        exact ⟨h1, h2, h3⟩
      · rw [if_neg hstop] at h
        obtain ⟨new', _, _, hoff, _, _, _, _⟩ :=
          decodeSpecAux_ok p s n _ _ _ _ _ _ h
        have hps : ((pos + 2 + byteAt p (pos + 1) : Nat) : Int) ≤ s := by
          have h1 : pos + 2 + byteAt p (pos + 1) ≤ off := by omega
          push_cast at hle ⊢
          omega
        have hp0 : byteAt p pos = byteAt q pos := hb pos (by push_cast at hps ⊢; omega)
        have hp1 : byteAt p (pos + 1) = byteAt q (pos + 1) :=
          hb (pos + 1) (by push_cast at hps ⊢; omega)
        rw [decodeSpecAux_succ, ← hp0, ← hp1, if_neg hck, if_neg hstop]
        exact ih _ _ _ _ _ _ _ h hle

/-- With at least one loop iteration available, every success appends at
least one tag to the accumulator. -/
theorem decodeSpecAux_nonempty (p : List Nat) (s : Int) :
    ∀ (fuel pos : Nat) (acc : List SpecTag) (reads : List Nat)
      (ts : List SpecTag) (off : Nat) (tsz : Int),
      (decodeSpecAux p s (fuel + 1) pos acc reads).1 = some (ts, off, tsz) →
      acc.length < ts.length := by
  intro fuel
  induction fuel with
  | zero =>
    intro pos acc reads ts off tsz h
    rw [decodeSpecAux_succ] at h
    by_cases hck : (byteAt p (pos + 1) : Int) > s - (pos : Int)
    · rw [if_pos hck] at h
      simp at h
    · rw [if_neg hck] at h
      by_cases hstop : ((pos + 2 + byteAt p (pos + 1) : Nat) : Int) ≥ s
      · rw [if_pos hstop] at h
        simp only [Option.some.injEq, Prod.mk.injEq] at h
        rw [← h.1]
        simp
      · rw [if_neg hstop, decodeSpecAux_zero] at h
        simp only [Option.some.injEq, Prod.mk.injEq] at h
        rw [← h.1]
        simp
  | succ n ih =>
    intro pos acc reads ts off tsz h
    rw [decodeSpecAux_succ] at h
    by_cases hck : (byteAt p (pos + 1) : Int) > s - (pos : Int)
    · rw [if_pos hck] at h
      simp at h
    · rw [if_neg hck] at h
      by_cases hstop : ((pos + 2 + byteAt p (pos + 1) : Nat) : Int) ≥ s
      · rw [if_pos hstop] at h
        simp only [Option.some.injEq, Prod.mk.injEq] at h
        rw [← h.1]
        simp
      · rw [if_neg hstop] at h
        have := ih _ _ _ _ _ _ h
        simp only [List.length_append, List.length_singleton] at this
        omega

/-! ### Lemmas about the trailer entry walk -/

theorem decodeTrailerAux_zero (data : List Nat) (len pos : Nat)
    (acc : List TrailerEntry) :
    decodeTrailerAux data len 0 pos acc =
      if pos < len then .diverge acc
      else if pos = len then .ok acc else .err acc := rfl

theorem decodeTrailerAux_succ (data : List Nat) (len fuel pos : Nat)
    (acc : List TrailerEntry) :
    decodeTrailerAux data len (fuel + 1) pos acc =
      if pos < len then
        decodeTrailerAux data len fuel
          (u32 (pos + readU32LEI data ((len : Int) - (pos : Int) - 6 + 2) + 6))
          (acc ++ [⟨readU16LEI data ((len : Int) - (pos : Int) - 6),
                   readU32LEI data ((len : Int) - (pos : Int) - 6 + 2),
                   u64sub (u32sub (u32sub len pos)
                     (readU32LEI data ((len : Int) - (pos : Int) - 6 + 2))) 6⟩])
      else if pos = len then .ok acc else .err acc := rfl

/-- The walk completes with `ok` exactly when the `uint32_t` cursor lands on
`trailer_len`, and with `err` exactly when it exits past `trailer_len`
without hitting it; in both cases the discovered entries determine the final
cursor via `entryStep`. -/
theorem decodeTrailerAux_consumed (data : List Nat) (len : Nat) :
    ∀ (fuel pos : Nat) (acc : List TrailerEntry),
      (∀ es, decodeTrailerAux data len fuel pos acc = .ok es →
        ∃ new, es = acc ++ new ∧ new.foldl entryStep pos = len) ∧
      (∀ es, decodeTrailerAux data len fuel pos acc = .err es →
        ∃ new, es = acc ++ new ∧ new.foldl entryStep pos ≠ len) := by
  intro fuel
  induction fuel with
  | zero =>
    intro pos acc
    constructor
    · intro es h
      rw [decodeTrailerAux_zero] at h
      by_cases h1 : pos < len
      · rw [if_pos h1] at h
        simp at h
      · rw [if_neg h1] at h
        by_cases h2 : pos = len
        · rw [if_pos h2] at h
          simp only [TDResult.ok.injEq] at h
          exact ⟨[], by simp [h.symm], by simpa using h2⟩
        · rw [if_neg h2] at h
          simp at h
    · intro es h
      rw [decodeTrailerAux_zero] at h
      by_cases h1 : pos < len
      · rw [if_pos h1] at h
        simp at h
      · rw [if_neg h1] at h
        by_cases h2 : pos = len
        · rw [if_pos h2] at h
          simp at h
        · rw [if_neg h2] at h
          simp only [TDResult.err.injEq] at h
          exact ⟨[], by simp [h.symm], by simpa using h2⟩
  | succ n ih =>
    intro pos acc
    constructor
    · intro es h
      rw [decodeTrailerAux_succ] at h
      by_cases h1 : pos < len
      · rw [if_pos h1] at h
        obtain ⟨new', hes, hfold⟩ := (ih _ _).1 es h
        refine ⟨_ :: new', by simpa using hes, ?_⟩
        simpa [entryStep] using hfold
      · rw [if_neg h1] at h
        by_cases h2 : pos = len
        · rw [if_pos h2] at h
          simp only [TDResult.ok.injEq] at h
          exact ⟨[], by simp [h.symm], by simpa using h2⟩
        · rw [if_neg h2] at h
          simp at h
    · intro es h
      rw [decodeTrailerAux_succ] at h
      by_cases h1 : pos < len
      · rw [if_pos h1] at h
        obtain ⟨new', hes, hfold⟩ := (ih _ _).2 es h
        refine ⟨_ :: new', by simpa using hes, ?_⟩
        simpa [entryStep] using hfold
      · rw [if_neg h1] at h
        by_cases h2 : pos = len
        · rw [if_pos h2] at h
          simp at h
        · rw [if_neg h2] at h
          simp only [TDResult.err.injEq] at h
          exact ⟨[], by simp [h.symm], by simpa using h2⟩

/-! ### Lemmas about the driver write phase -/

theorem copyMediaLoop_nil (rc wc : List Nat) (st : List Nat × Nat) (r : Nat) :
    copyMediaLoop rc wc [] st r = (st, false) := rfl

theorem copyMediaLoop_cons (rc wc : List Nat) (c : List Nat)
    (cs : List (List Nat)) (st : List Nat × Nat) (r : Nat) :
    copyMediaLoop rc wc (c :: cs) st r =
      if min (rc.getD r c.length) c.length ≠ c.length then (st, true)
      else if (writeStep wc st c).2 ≠ c.length then ((writeStep wc st c).1, true)
      else copyMediaLoop rc wc cs (writeStep wc st c).1 (r + 1) := rfl

theorem mediaOkB_nil (rc wc : List Nat) (k : Nat) : mediaOkB rc wc k [] = true := rfl

theorem mediaOkB_cons (rc wc : List Nat) (k : Nat) (c : List Nat)
    (cs : List (List Nat)) :
    mediaOkB rc wc k (c :: cs) =
      ((min (rc.getD k c.length) c.length == c.length &&
        min (wc.getD k c.length) c.length == c.length) &&
       mediaOkB rc wc (k + 1) cs) := rfl

/-- The media-copy loop's error flag is the negation of `mediaOkB`. -/
theorem copyMediaLoop_flag (rc wc : List Nat) :
    ∀ (cs : List (List Nat)) (st : List Nat × Nat) (k : Nat), st.2 = k →
      (copyMediaLoop rc wc cs st k).2 = !(mediaOkB rc wc k cs) := by
  intro cs
  induction cs with
  | nil =>
    intro st k _
    rw [copyMediaLoop_nil, mediaOkB_nil]
    rfl
  | cons c cs ih =>
    intro st k hk
    rw [copyMediaLoop_cons, mediaOkB_cons]
    by_cases h1 : min (rc.getD k c.length) c.length = c.length
    · rw [if_neg (fun hc => hc h1)]
      have hw : (writeStep wc st c).2 = min (wc.getD k c.length) c.length := by
        simp [writeStep, fwriteCount, hk]
      by_cases h2 : min (wc.getD k c.length) c.length = c.length
      · rw [if_neg (by rw [hw]; exact fun hc => hc h2)]
        rw [ih (writeStep wc st c).1 (k + 1) (by simp [writeStep, hk])]
        have e1 : (min (rc.getD k c.length) c.length == c.length) = true :=
          beq_iff_eq.mpr h1
        have e2 : (min (wc.getD k c.length) c.length == c.length) = true :=
          beq_iff_eq.mpr h2
        rw [e1, e2]
        simp
      · rw [if_pos (by rw [hw]; exact h2)]
        have e2 : (min (wc.getD k c.length) c.length == c.length) = false :=
          beq_eq_false_iff_ne.mpr h2
        rw [e2]
        simp
    · rw [if_pos h1]
      have e1 : (min (rc.getD k c.length) c.length == c.length) = false :=
        beq_eq_false_iff_ne.mpr h1
      rw [e1]
      simp

/-! ### Claim theorems -/

/-- C2: the claim states that when the decoded tag sequence has no
stitching-offset tag, the replacement payload has size old + strlen(new) + 2
and contains all original tags, then the new offset tag, then the tail.  The
code computes `new_header_size = old − 0 + strlen(new)` with no `+2` for the
newly inserted 2-byte tag header, so on the 3-byte payload `[0x0A, 1, 65]`
(one serial tag, empty tail) with new offset `"Z"` it reports size 4 — not
3 + 1 + 2 = 6 — and the emitted buffer truncates the inserted tag: the claim
(and the spec's `+2` algorithm) describe the intent, the code under-allocates
and overflows its heap buffer.  This theorem evaluates the code model at that
failing input. -/
theorem C2_insertion_size_bug :
    ins_change_stitching_offset [0x0A, 1, 65] 3 [90] =
      some ([0x0A, 1, 65, 0x2A], 4) ∧
    (4 : Int) ≠ 3 + 1 + 2 ∧
    ([0x0A, 1, 65, 0x2A] : List Nat) ≠ [0x0A, 1, 65] ++ [0x2A, 1] ++ [90] := by
  refine ⟨by decide, by decide, by decide⟩

/-- C3 counterexample: the claim says a tag whose declared `data_size`
exceeds the payload bytes remaining *after* its 2-byte header must make the
function fail.  On payload `[0x0A, 2, 65]` of size 3, the single tag declares
`data_size = 2` while only 1 byte remains after its header, yet the decode
succeeds (the code compares against the remaining bytes *including* the
header, `3 - 0`), returning the tag and a negative tail size. -/
theorem C3_counterexample :
    (ins_decode_trailer_specific_header [0x0A, 2, 65] 3).1 =
      some ([⟨0x0A, 2, 0⟩], 4, -1) ∧
    ((2 : Int) > 3 - ((0 : Nat) : Int) - 2) := by
  refine ⟨by decide, by decide⟩

/-- C3 amended: the bound the code enforces is inclusive of the tag's own
2-byte header: on every success each decoded tag satisfies
`data_size ≤ hdr_size - hdr_offset` (not `- 2` more), and every byte the
decoder reads is a tag-header byte at an offset at most `max hdr_size 1`
(the 2-byte header read may extend one byte past the payload; tag value
bytes are never read during decoding). -/
theorem C3_amended_bound (p : List Nat) (s : Int) :
    (∀ ts off tsz, (ins_decode_trailer_specific_header p s).1 = some (ts, off, tsz) →
      ∀ t ∈ ts, (t.data_size : Int) ≤ s - (t.hdr_offset : Int)) ∧
    (∀ r ∈ (ins_decode_trailer_specific_header p s).2, (r : Int) ≤ max s 1) := by
  constructor
  · intro ts off tsz h t ht
    obtain ⟨new, hts, _, _, _, _, htags, _⟩ :=
      decodeSpecAux_ok p s 4 0 [] [] ts off tsz h
    simp only [List.nil_append] at hts
    exact (htags t (hts ▸ ht)).2.2.1
  · intro r hr
    rcases decodeSpecAux_reads p s 4 0 [] [] (Or.inr rfl) r hr with h1 | h1
    · simp at h1
    · exact h1

/-- C3 amended, witness at the counterexample input: the decoded tag of
`[0x0A, 2, 65]` satisfies the inclusive bound `2 ≤ 3 - 0`. -/
theorem C3_amended_witness :
    ((2 : Nat) : Int) ≤ 3 - ((0 : Nat) : Int) :=
  (C3_amended_bound [0x0A, 2, 65] 3).1 [⟨0x0A, 2, 0⟩] 4 (-1) (by decide)
    ⟨0x0A, 2, 0⟩ (by decide)

/-- C5 counterexample: the claim says every successful decode has
`72 + Σ (6 + length) = trailer_len` in exact arithmetic.  `trailer_read_pos`
is a `uint32_t`, so a crafted 78-byte trailer whose first entry declares
length `0xFFFFFFB2` wraps the cursor (72 → 0 → 78) and decodes successfully
although the exact sum is `72 + (6 + 4294967218) + (6 + 72) ≠ 78`. -/
theorem C5_counterexample :
    ins_decode_trailer_data cx5buf 78 10 =
      .ok [⟨0, 4294967218, 78⟩, ⟨0, 72, 0⟩] ∧
    72 + (6 + 4294967218) + (6 + 72) ≠ 78 := by
  refine ⟨by decide, by decide⟩

/-- C5 amended: the structural checksum holds in the `uint32_t` arithmetic
the code uses: whenever the walk completes, it returns success iff the
cumulative consumed length — 72 plus `6 + length` per discovered entry,
accumulated modulo `2^32` (`consumedLen`) — lands exactly on `trailer_len`. -/
theorem C5_amended_checksum (data : List Nat) (len fuel : Nat) :
    (∀ es, ins_decode_trailer_data data len fuel = .ok es → consumedLen es = len) ∧
    (∀ es, ins_decode_trailer_data data len fuel = .err es → consumedLen es ≠ len) := by
  constructor
  · intro es h
    obtain ⟨new, hes, hfold⟩ :=
      (decodeTrailerAux_consumed data len fuel kInsFileMinHeaderLength []).1 es h
    simp only [List.nil_append] at hes
    rw [consumedLen, hes]
    exact hfold
  · intro es h
    obtain ⟨new, hes, hfold⟩ :=
      (decodeTrailerAux_consumed data len fuel kInsFileMinHeaderLength []).2 es h
    simp only [List.nil_append] at hes
    rw [consumedLen, hes]
    exact hfold

/-- C5 amended, witness at the wraparound input: the modular consumed length
of the two discovered entries is exactly 78. -/
theorem C5_amended_witness :
    consumedLen [⟨0, 4294967218, 78⟩, ⟨0, 72, 0⟩] = 78 :=
  (C5_amended_checksum cx5buf 78 10).1 _ (by decide)

/-- C6 counterexample: the claim says a short write during emission of the
rebuilt trailer aborts with a failure code.  In a run whose media chunk
`[1,2]` copies in full but whose first trailer-part `fwrite` accepts only 1
of 3 bytes, the driver still returns 0 (success) with a truncated trailer in
the output file: the trailer-phase `fwrite` return values are discarded. -/
theorem C6_counterexample :
    driverWritePhase [[1, 2]] [[3, 4, 5], [7], [8]] [2] [2, 1, 1, 1] =
      (0, [1, 2, 3, 7, 8]) ∧
    ([1, 2, 3, 7, 8] : List Nat) ≠ [1, 2] ++ [3, 4, 5] ++ [7] ++ [8] := by
  refine ⟨by decide, by decide⟩

/-- C6 amended: only the media-copy loop checks transfer counts: if every
media chunk is read and written in full the driver returns 0 regardless of
any short counts among the trailer-phase writes, and if some media transfer
is short the driver returns -6 (before any trailer part is written). -/
theorem C6_amended_write_checks (mediaChunks trailerParts : List (List Nat))
    (rc wc : List Nat) :
    (mediaOkB rc wc 0 mediaChunks = true →
      (driverWritePhase mediaChunks trailerParts rc wc).1 = 0) ∧
    (mediaOkB rc wc 0 mediaChunks = false →
      (driverWritePhase mediaChunks trailerParts rc wc).1 = -6) := by
  have hflag := copyMediaLoop_flag rc wc mediaChunks ([], 0) 0 rfl
  constructor
  · intro hok
    unfold driverWritePhase
    rw [hok] at hflag
    simp only [Bool.not_true] at hflag
    rcases hres : copyMediaLoop rc wc mediaChunks ([], 0) 0 with ⟨st, flag⟩
    rw [hres] at hflag
    simp only at hflag
    rw [hflag]
  · intro hbad
    unfold driverWritePhase
    rw [hbad] at hflag
    simp only [Bool.not_false] at hflag
    rcases hres : copyMediaLoop rc wc mediaChunks ([], 0) 0 with ⟨st, flag⟩
    rw [hres] at hflag
    simp only at hflag
    rw [hflag]

/-- C6 amended, witness: a full media copy followed by a short trailer write
(write count 0 allowed at index 1) still exits with code 0. -/
theorem C6_amended_witness :
    (driverWritePhase [[1, 2]] [[3, 4, 5]] [2] [2, 0]).1 = 0 :=
  (C6_amended_write_checks [[1, 2]] [[3, 4, 5]] [2] [2, 0]).1 (by decide)

/-- C8: the specific-header decoder records at most 4 tags; on every success
the tail starts exactly at the final cursor (the span of the decoded tags)
with `tail_size = hdr_size - cursor` — whatever bytes follow, including a
parseable 5th tag-shaped record, become tail — and fewer than 4 decoded tags
happens only when the cursor reached or passed the payload size, which is a
`break`, not an error. -/
theorem C8_bounded_tags (p : List Nat) (s : Int) (ts : List SpecTag)
    (off : Nat) (tsz : Int)
    (h : (ins_decode_trailer_specific_header p s).1 = some (ts, off, tsz)) :
    ts.length ≤ 4 ∧ off = tagsSpan ts ∧ tsz = s - (off : Int) ∧
      (ts.length < 4 → s ≤ (off : Int)) := by
  obtain ⟨new, hts, hlen, hoff, htsz, hfew, _, _⟩ :=
    decodeSpecAux_ok p s 4 0 [] [] ts off tsz h
  simp only [List.nil_append] at hts
  subst hts
  exact ⟨hlen, by simpa using hoff, htsz, hfew⟩

/-- C8 witness: on the payload `[0x0A, 1, 65, 0x2A, 2, 66, 67]` (two tags,
empty tail) the decode stops after 2 tags with the cursor at the payload
size. -/
theorem C8_bounded_tags_witness :
    ([⟨0x0A, 1, 0⟩, ⟨0x2A, 2, 3⟩] : List SpecTag).length ≤ 4 ∧
      7 = tagsSpan [⟨0x0A, 1, 0⟩, ⟨0x2A, 2, 3⟩] ∧
      (0 : Int) = 7 - ((7 : Nat) : Int) ∧
      (([⟨0x0A, 1, 0⟩, ⟨0x2A, 2, 3⟩] : List SpecTag).length < 4 →
        (7 : Int) ≤ ((7 : Nat) : Int)) :=
  C8_bounded_tags [0x0A, 1, 65, 0x2A, 2, 66, 67] 7 _ _ _ (by decide)

/-- C9: a trailer whose `trailer_len` is exactly 72 is accepted by
`ins_decode_trailer_data` with an empty entry sequence: the cursor starts at
72, the `while` loop body never runs, and the exact-landing post-check
succeeds immediately, for every buffer and any fuel. -/
theorem C9_minimal_trailer (data : List Nat) (fuel : Nat) :
    ins_decode_trailer_data data 72 fuel = .ok [] := by
  cases fuel with
  | zero =>
    rw [ins_decode_trailer_data, kInsFileMinHeaderLength, decodeTrailerAux_zero]
    simp
  | succ n =>
    rw [ins_decode_trailer_data, kInsFileMinHeaderLength, decodeTrailerAux_succ]
    simp

/-- C10: every successful run of `ins_decode_trailer_specific_header` returns
at least one tag: the first loop iteration reads the 2-byte header at offset
0 and, unless the `data_size` bound check fails the whole call, records a tag
— so no success yields an empty tag sequence, even for payloads shorter than
2 bytes. -/
theorem C10_success_nonempty (p : List Nat) (s : Int) (ts : List SpecTag)
    (off : Nat) (tsz : Int)
    (h : (ins_decode_trailer_specific_header p s).1 = some (ts, off, tsz)) :
    ts ≠ [] := by
  have hlt := decodeSpecAux_nonempty p s 3 0 [] [] ts off tsz h
  intro hc
  rw [hc] at hlt
  simp at hlt

/-- C10 witness: even the empty payload (size 0) decodes successfully — to a
junk tag read out of bounds — and the returned tag list is nonempty. -/
theorem C10_success_nonempty_witness : ([⟨0, 0, 0⟩] : List SpecTag) ≠ [] :=
  C10_success_nonempty [] 0 [⟨0, 0, 0⟩] 2 (-2) (by decide)

/-! ### Lemmas about the rebuilt trailer layout -/

theorem entryHdrBytes_length (t len : Nat) : (entryHdrBytes t len).length = 6 := rfl

/-- The entry region the rebuild phase writes has exactly
`rebuildTotal entries newSpec` bytes. -/
theorem rebuildBody_length (T : List Nat) (entries : List TrailerEntry)
    (newSpec : List Nat) :
    (rebuildBody T entries newSpec).length = rebuildTotal entries newSpec := by
  rw [rebuildBody, List.length_flatten, List.map_map, rebuildTotal]
  rw [show entries.reverse.map _ = (entries.map (List.length ∘ (fun e =>
      if e.type = 0x0101 then newSpec ++ entryHdrBytes e.type newSpec.length
      else readBytes T e.offset_to_data e.length ++
        entryHdrBytes e.type e.length))).reverse from (List.map_reverse _ _)]
  rw [List.sum_reverse]
  congr 1
  apply List.map_congr_left
  intro e _
  simp only [Function.comp_apply]
  by_cases h : e.type = 0x0101
  · rw [if_pos h, if_pos h]
    simp [entryHdrBytes_length]
  · rw [if_neg h, if_neg h]
    simp [entryHdrBytes_length, readBytes_length]

theorem rebuildTrailerBytes_length (T : List Nat) (entries : List TrailerEntry)
    (newSpec : List Nat) (ver : Nat) :
    (rebuildTrailerBytes T entries newSpec ver).length =
      rebuildTotal entries newSpec + 72 := by
  rw [rebuildTrailerBytes]
  simp only [List.length_append, rebuildBody_length, List.length_replicate]
  rw [show (u32bytes (rebuildTotal entries newSpec + 72)).length = 4 from rfl,
      show (u32bytes ver).length = 4 from rfl,
      show kInsFileSignatureBytes.length = 32 from rfl]

/-- C4: the rebuilt trailer emitted by `run_change_stitching_offset` carries,
in its trailer-header position (40 bytes before the end), a `trailer_len`
field recomputed as the sum over all emitted entries of (emitted payload
length + 6) plus 72 — using the mutated entry's new payload length, with no
dependence on the input trailer's stored `trailer_len` — and, 36 bytes before
the end, the `trailer_version` passed through unchanged from the input
trailer.  Stated under the bounds within which the C `int`/`uint32_t`
arithmetic cannot wrap. -/
theorem C4_recomputed_trailer_header (T : List Nat) (entries : List TrailerEntry)
    (newSpec : List Nat) (ver : Nat)
    (h1 : rebuildTotal entries newSpec + 72 < 4294967296)
    (h2 : ver < 4294967296) :
    (rebuildTrailerBytes T entries newSpec ver).length =
      rebuildTotal entries newSpec + 72 ∧
    readU32LE (rebuildTrailerBytes T entries newSpec ver)
      ((rebuildTrailerBytes T entries newSpec ver).length - 40) =
      rebuildTotal entries newSpec + 72 ∧
    readU32LE (rebuildTrailerBytes T entries newSpec ver)
      ((rebuildTrailerBytes T entries newSpec ver).length - 36) = ver := by
  refine ⟨rebuildTrailerBytes_length T entries newSpec ver, ?_, ?_⟩
  · rw [rebuildTrailerBytes_length]
    rw [show rebuildTrailerBytes T entries newSpec ver =
      (rebuildBody T entries newSpec ++ List.replicate 32 0) ++
      (u32bytes (rebuildTotal entries newSpec + 72) ++
        (u32bytes ver ++ kInsFileSignatureBytes)) by
      rw [rebuildTrailerBytes]
      simp [List.append_assoc]]
    rw [show rebuildTotal entries newSpec + 72 - 40 =
      (rebuildBody T entries newSpec ++ List.replicate 32 0).length by
      simp only [List.length_append, rebuildBody_length, List.length_replicate]
      omega]
    rw [readU32LE_append, readU32LE_u32bytes]
    omega
  · rw [rebuildTrailerBytes_length]
    rw [show rebuildTrailerBytes T entries newSpec ver =
      ((rebuildBody T entries newSpec ++ List.replicate 32 0) ++
        u32bytes (rebuildTotal entries newSpec + 72)) ++
      (u32bytes ver ++ kInsFileSignatureBytes) by
      rw [rebuildTrailerBytes]
      simp [List.append_assoc]]
    rw [show rebuildTotal entries newSpec + 72 - 36 =
      ((rebuildBody T entries newSpec ++ List.replicate 32 0) ++
        u32bytes (rebuildTotal entries newSpec + 72)).length by
      simp only [List.length_append, rebuildBody_length, List.length_replicate]
      rw [show (u32bytes (rebuildTotal entries newSpec + 72)).length = 4 from rfl]
      omega]
    rw [readU32LE_append, readU32LE_u32bytes]
    omega

/-- C4 witness: for a single specific-info entry rebuilt with a 2-byte
payload and version 3, the emitted trailer is 80 bytes, stores
`trailer_len = 8 + 72 = 80`, and stores version 3. -/
theorem C4_recomputed_trailer_header_witness :
    (rebuildTrailerBytes [] [⟨0x0101, 3, 0⟩] [1, 2] 3).length =
      rebuildTotal [⟨0x0101, 3, 0⟩] [1, 2] + 72 ∧
    readU32LE (rebuildTrailerBytes [] [⟨0x0101, 3, 0⟩] [1, 2] 3)
      ((rebuildTrailerBytes [] [⟨0x0101, 3, 0⟩] [1, 2] 3).length - 40) =
      rebuildTotal [⟨0x0101, 3, 0⟩] [1, 2] + 72 ∧
    readU32LE (rebuildTrailerBytes [] [⟨0x0101, 3, 0⟩] [1, 2] 3)
      ((rebuildTrailerBytes [] [⟨0x0101, 3, 0⟩] [1, 2] 3).length - 36) = 3 :=
  C4_recomputed_trailer_header [] [⟨0x0101, 3, 0⟩] [1, 2] 3 (by decide) (by decide)

/-! ### Lemmas about the forward trailer serialization -/

theorem totalEntriesLen_nil : totalEntriesLen [] = 0 := rfl

theorem totalEntriesLen_cons (t : Nat) (p : List Nat) (xs : List (Nat × List Nat)) :
    totalEntriesLen ((t, p) :: xs) = p.length + 6 + totalEntriesLen xs := by
  simp [totalEntriesLen]

theorem totalEntriesLen_append (xs ys : List (Nat × List Nat)) :
    totalEntriesLen (xs ++ ys) = totalEntriesLen xs + totalEntriesLen ys := by
  simp [totalEntriesLen]

theorem totalEntriesLen_reverse (xs : List (Nat × List Nat)) :
    totalEntriesLen xs.reverse = totalEntriesLen xs := by
  unfold totalEntriesLen
  rw [List.map_reverse, List.sum_reverse]

theorem serializeEntries_nil : serializeEntries [] = [] := rfl

theorem serializeEntries_cons (t : Nat) (p : List Nat) (xs : List (Nat × List Nat)) :
    serializeEntries ((t, p) :: xs) =
      (p ++ entryHdrBytes t p.length) ++ serializeEntries xs := by
  simp [serializeEntries]

theorem serializeEntries_append (xs ys : List (Nat × List Nat)) :
    serializeEntries (xs ++ ys) = serializeEntries xs ++ serializeEntries ys := by
  simp [serializeEntries]

theorem serializeEntries_length (xs : List (Nat × List Nat)) :
    (serializeEntries xs).length = totalEntriesLen xs := by
  unfold serializeEntries totalEntriesLen
  rw [List.length_flatten, List.map_map]
  congr 1
  apply List.map_congr_left
  intro e _
  simp [entryHdrBytes_length]

theorem serializeTrailer_length (fs : List (Nat × List Nat)) (v : Nat) :
    (serializeTrailer fs v).length = totalEntriesLen fs + 72 := by
  unfold serializeTrailer
  simp only [List.length_append, serializeEntries_length, List.length_replicate]
  rw [show (u32bytes (totalEntriesLen fs + 72)).length = 4 from rfl,
      show (u32bytes v).length = 4 from rfl,
      show kInsFileSignatureBytes.length = 32 from rfl]

theorem payload_le_totalEntriesLen (fs : List (Nat × List Nat)) (e : Nat × List Nat)
    (h : e ∈ fs) : e.2.length + 6 ≤ totalEntriesLen fs := by
  unfold totalEntriesLen
  exact List.single_le_sum (by intro x _; omega) _ (List.mem_map_of_mem _ h)

/-- The walk exits immediately with success when the cursor equals
`trailer_len`, for any fuel. -/
theorem decodeTrailerAux_exit (data : List Nat) (len fuel pos : Nat)
    (acc : List TrailerEntry) (h : pos = len) :
    decodeTrailerAux data len fuel pos acc = .ok acc := by
  cases fuel with
  | zero =>
    rw [decodeTrailerAux_zero, if_neg (by omega), if_pos h]
  | succ n =>
    rw [decodeTrailerAux_succ, if_neg (by omega), if_pos h]

/-- Decoding a serialized trailer: with the cursor positioned after the
(already consumed) forward-suffix `fs₂` and `gs` the remaining entries in
discovery order, the walk discovers exactly `discEntries gs`. -/
theorem decodeTrailerAux_serialized (v : Nat) :
    ∀ (gs fs₂ : List (Nat × List Nat)) (fuel : Nat) (acc : List TrailerEntry),
      gs.length ≤ fuel →
      (∀ e ∈ gs.reverse ++ fs₂, e.1 < 65536) →
      totalEntriesLen (gs.reverse ++ fs₂) + 72 < 4294967296 →
      decodeTrailerAux (serializeTrailer (gs.reverse ++ fs₂) v)
        (totalEntriesLen (gs.reverse ++ fs₂) + 72) fuel
        (72 + totalEntriesLen fs₂) acc =
      .ok (acc ++ discEntries gs) := by
  intro gs
  induction gs with
  | nil =>
    intro fs₂ fuel acc _ _ _
    rw [decodeTrailerAux_exit _ _ _ _ _ (by
      simp only [List.reverse_nil, List.nil_append]
      omega)]
    simp [discEntries]
  | cons e gs' ih =>
    rcases e with ⟨t, p⟩
    intro fs₂ fuel acc hfuel htypes hlen
    have hfs : ((t, p) :: gs').reverse ++ fs₂ = gs'.reverse ++ ((t, p) :: fs₂) := by
      rw [List.reverse_cons, List.append_assoc]
      rfl
    have hB := totalEntriesLen_reverse gs'
    have htot : totalEntriesLen (((t, p) :: gs').reverse ++ fs₂) =
        totalEntriesLen gs' + (p.length + 6) + totalEntriesLen fs₂ := by
      rw [hfs, totalEntriesLen_append, totalEntriesLen_cons]
      omega
    cases fuel with
    | zero =>
      rw [List.length_cons] at hfuel
      omega
    | succ n =>
      have hpos : 72 + totalEntriesLen fs₂ <
          totalEntriesLen (((t, p) :: gs').reverse ++ fs₂) + 72 := by omega
      rw [decodeTrailerAux_succ, if_pos hpos]
      -- the layout around the entry header of (t, p)
      have hT : serializeTrailer (((t, p) :: gs').reverse ++ fs₂) v =
          (serializeEntries gs'.reverse ++ p) ++
            (u16bytes t ++ (u32bytes p.length ++
              (serializeEntries fs₂ ++ (List.replicate 32 0 ++
                (u32bytes (totalEntriesLen (((t, p) :: gs').reverse ++ fs₂) + 72) ++
                  (u32bytes v ++ kInsFileSignatureBytes)))))) := by
        rw [serializeTrailer]
        rw [show ((t, p) :: gs').reverse ++ fs₂ = gs'.reverse ++ ((t, p) :: fs₂) from hfs]
        rw [serializeEntries_append, serializeEntries_cons, entryHdrBytes]
        simp [List.append_assoc]
      have hAlen : (serializeEntries gs'.reverse ++ p).length =
          totalEntriesLen gs' + p.length := by
        rw [List.length_append, serializeEntries_length, hB]
      have hA2len : ((serializeEntries gs'.reverse ++ p) ++ u16bytes t).length =
          totalEntriesLen gs' + p.length + 2 := by
        rw [List.length_append, hAlen]
        rfl
      -- the three loads of the loop body
      have hread16 : readU16LE (serializeTrailer (((t, p) :: gs').reverse ++ fs₂) v)
          (totalEntriesLen gs' + p.length) = t := by
        rw [hT, ← hAlen, readU16LE_append, readU16LE_u16bytes]
        exact Nat.mod_eq_of_lt (htypes (t, p) (by simp))
      have hread32 : readU32LE (serializeTrailer (((t, p) :: gs').reverse ++ fs₂) v)
          (totalEntriesLen gs' + p.length + 2) = p.length := by
        rw [hT, ← List.append_assoc, ← hA2len, readU32LE_append, readU32LE_u32bytes]
        exact Nat.mod_eq_of_lt (by omega)
      have hoffInt : (↑(totalEntriesLen (((t, p) :: gs').reverse ++ fs₂) + 72) : Int) -
          (↑(72 + totalEntriesLen fs₂) : Int) - 6 =
          ((totalEntriesLen gs' + p.length : Nat) : Int) := by
        push_cast
        omega
      have hoffInt2 : (↑(totalEntriesLen (((t, p) :: gs').reverse ++ fs₂) + 72) : Int) -
          (↑(72 + totalEntriesLen fs₂) : Int) - 6 + 2 =
          ((totalEntriesLen gs' + p.length + 2 : Nat) : Int) := by
        push_cast
        omega
      rw [hoffInt2, readU32LEI_natCast, hread32, hoffInt, readU16LEI_natCast, hread16]
      -- the data offset computed by the walk
      have e1 : u32sub (totalEntriesLen (((t, p) :: gs').reverse ++ fs₂) + 72)
          (72 + totalEntriesLen fs₂) = totalEntriesLen gs' + p.length + 6 := by
        rw [u32sub_exact _ _ (by omega) (by omega)]
        omega
      have e2 : u32sub (totalEntriesLen gs' + p.length + 6) p.length =
          totalEntriesLen gs' + 6 := by
        rw [u32sub_exact _ _ (by omega) (by omega)]
        omega
      have e3 : u64sub (totalEntriesLen gs' + 6) 6 = totalEntriesLen gs' := by
        rw [u64sub_exact _ _ (by omega) (by omega)]
        omega
      rw [e1, e2, e3]
      -- the advanced cursor
      have hstep : u32 (72 + totalEntriesLen fs₂ + p.length + 6) =
          72 + totalEntriesLen ((t, p) :: fs₂) := by
        rw [totalEntriesLen_cons]
        rw [u32_eq_of_lt _ (by omega)]
        omega
      rw [hstep]
      -- apply the induction hypothesis with the entry moved to the consumed side
      have hrw : gs'.reverse ++ ((t, p) :: fs₂) = ((t, p) :: gs').reverse ++ fs₂ :=
        hfs.symm
      have := ih ((t, p) :: fs₂) n
        (acc ++ [⟨t, p.length, totalEntriesLen gs'⟩])
        (by simpa using hfuel)
        (by rw [hrw]; exact htypes)
        (by rw [hrw]; exact hlen)
      rw [hrw] at this
      rw [this]
      rw [discEntries]
      rw [List.append_assoc]
      rfl

/-- Top-level form: decoding a serialized trailer yields `entriesOf fs`. -/
theorem decode_serializeTrailer (fs : List (Nat × List Nat)) (v fuel : Nat)
    (hfuel : fs.length ≤ fuel)
    (htypes : ∀ e ∈ fs, e.1 < 65536)
    (hlen : totalEntriesLen fs + 72 < 4294967296) :
    ins_decode_trailer_data (serializeTrailer fs v) (totalEntriesLen fs + 72) fuel =
      .ok (entriesOf fs) := by
  have := decodeTrailerAux_serialized v fs.reverse [] fuel []
    (by simpa using hfuel)
    (by simpa using htypes)
    (by simpa using hlen)
  rw [List.reverse_reverse] at this
  simp only [List.append_nil, totalEntriesLen_nil] at this
  rw [ins_decode_trailer_data, kInsFileMinHeaderLength]
  rw [show (72 : Nat) = 72 + 0 by rfl] at this ⊢
  simpa [entriesOf] using this

/-! ### Lemmas for the rewrite round trip -/

theorem readBytes_append_left (p rest : List Nat) (i n : Nat) (h : i + n ≤ p.length) :
    readBytes (p ++ rest) i n = readBytes p i n := by
  rw [readBytes_eq_drop_take _ _ _ (by simp only [List.length_append]; omega),
      readBytes_eq_drop_take _ _ _ h]
  rw [List.drop_append_of_le_length (by omega)]
  rw [List.take_append_of_le_length (by rw [List.length_drop]; omega)]

theorem find?_first {α : Type} (pred : α → Bool) :
    ∀ (L : List α) (x : α) (M : List α),
      (∀ u ∈ L, pred u = false) → pred x = true →
      (L ++ x :: M).find? pred = some x := by
  intro L
  induction L with
  | nil =>
    intro x M _ hx
    rw [List.nil_append, List.find?_cons_of_pos _ hx]
  | cons a L ih =>
    intro x M hL hx
    rw [List.cons_append, List.find?_cons_of_neg _ (by simp [hL a (by simp)])]
    exact ih x M (fun u hu => hL u (by simp [hu])) hx

theorem discEntries_nil : discEntries [] = [] := rfl

theorem discEntries_cons (t : Nat) (p : List Nat) (rest : List (Nat × List Nat)) :
    discEntries ((t, p) :: rest) =
      ⟨t, p.length, totalEntriesLen rest⟩ :: discEntries rest := rfl

theorem discEntries_types :
    ∀ gs : List (Nat × List Nat),
      (discEntries gs).map TrailerEntry.type = gs.map Prod.fst := by
  intro gs
  induction gs with
  | nil => rfl
  | cons e rest ih =>
    rcases e with ⟨t, p⟩
    rw [discEntries_cons, List.map_cons, List.map_cons, ih]

theorem discEntries_append :
    ∀ xs ys : List (Nat × List Nat),
      ∃ A, discEntries (xs ++ ys) = A ++ discEntries ys ∧
        A.map TrailerEntry.type = xs.map Prod.fst := by
  intro xs
  induction xs with
  | nil => exact fun ys => ⟨[], rfl, rfl⟩
  | cons e xs ih =>
    intro ys
    rcases e with ⟨t, p⟩
    obtain ⟨A, h1, h2⟩ := ih ys
    refine ⟨⟨t, p.length, totalEntriesLen (xs ++ ys)⟩ :: A, ?_, by simp [h2]⟩
    rw [List.cons_append, discEntries_cons, h1]
    rfl

theorem replaceSpec_append (xs ys : List (Nat × List Nat)) (n : List Nat) :
    replaceSpec (xs ++ ys) n = replaceSpec xs n ++ replaceSpec ys n := by
  simp [replaceSpec]

theorem replaceSpec_reverse (xs : List (Nat × List Nat)) (n : List Nat) :
    replaceSpec xs.reverse n = (replaceSpec xs n).reverse :=
  List.map_reverse _ _

theorem rebuildBody_cons (T : List Nat) (newSpec : List Nat) (e : TrailerEntry)
    (D : List TrailerEntry) :
    rebuildBody T (e :: D) newSpec =
      rebuildBody T D newSpec ++
        (if e.type = 0x0101 then newSpec ++ entryHdrBytes e.type newSpec.length
         else readBytes T e.offset_to_data e.length ++
           entryHdrBytes e.type e.length) := by
  unfold rebuildBody
  rw [List.reverse_cons, List.map_append, List.flatten_append]
  simp

/-- The rebuild loop applied to the discovered entries of a serialized
trailer reproduces the forward entry region, with every specific-info payload
replaced by `newSpec`. -/
theorem rebuildBody_blocks (T : List Nat) (newSpec : List Nat) :
    ∀ (gs : List (Nat × List Nat)) (R : List Nat),
      T = serializeEntries gs.reverse ++ R →
      rebuildBody T (discEntries gs) newSpec =
        serializeEntries (replaceSpec gs.reverse newSpec) := by
  intro gs
  induction gs with
  | nil =>
    intro R _
    rfl
  | cons e gs' ih =>
    rcases e with ⟨t, p⟩
    intro R hT
    have hsplit : serializeEntries ((t, p) :: gs').reverse =
        serializeEntries gs'.reverse ++
          ((p ++ entryHdrBytes t p.length) ++ []) := by
      rw [List.reverse_cons, serializeEntries_append, serializeEntries_cons,
        serializeEntries_nil]
    have hT' : T = serializeEntries gs'.reverse ++
        (((p ++ entryHdrBytes t p.length) ++ []) ++ R) := by
      rw [hT, hsplit, List.append_assoc]
    rw [discEntries_cons, rebuildBody_cons, ih _ hT']
    rw [List.reverse_cons, replaceSpec_append, serializeEntries_append]
    congr 1
    have hoffA : totalEntriesLen gs' = (serializeEntries gs'.reverse).length := by
      rw [serializeEntries_length, totalEntriesLen_reverse]
    by_cases ht : t = 0x0101
    · rw [if_pos (by exact ht)]
      simp only [replaceSpec, List.map_cons, List.map_nil, if_pos ht]
      rw [serializeEntries_cons, serializeEntries_nil]
      simp
    · rw [if_neg (by exact ht)]
      simp only [replaceSpec, List.map_cons, List.map_nil, if_neg ht]
      rw [serializeEntries_cons, serializeEntries_nil]
      have hreadp : readBytes T (totalEntriesLen gs') p.length = p := by
        rw [hT', List.append_nil, hoffA]
        rw [show serializeEntries gs'.reverse ++ (p ++ entryHdrBytes t p.length ++ R) =
          serializeEntries gs'.reverse ++ (p ++ (entryHdrBytes t p.length ++ R)) by
            simp [List.append_assoc]]
        exact readBytes_slice _ _ _
      rw [hreadp]
      simp

/-- The accumulated `total_new_trailer_size` over the discovered entries of a
serialized trailer equals the entry-region length after payload
replacement. -/
theorem rebuildTotal_discEntries (newSpec : List Nat) :
    ∀ gs : List (Nat × List Nat),
      rebuildTotal (discEntries gs) newSpec =
        totalEntriesLen (replaceSpec gs newSpec) := by
  intro gs
  induction gs with
  | nil => rfl
  | cons e gs' ih =>
    rcases e with ⟨t, p⟩
    rw [discEntries_cons]
    unfold rebuildTotal at ih ⊢
    rw [List.map_cons, List.sum_cons, ih]
    by_cases ht : t = 0x0101
    · simp only [replaceSpec, List.map_cons, if_pos ht, totalEntriesLen_cons]
    · simp only [replaceSpec, List.map_cons, if_neg ht, totalEntriesLen_cons]

/-- Rebuilding a serialized trailer with replacement payload `newSpec` and
version `w` produces exactly the serialized trailer whose specific-info
payloads are `newSpec`. -/
theorem rebuildTrailer_serialized (fs : List (Nat × List Nat)) (v w : Nat)
    (newSpec : List Nat) :
    rebuildTrailerBytes (serializeTrailer fs v) (entriesOf fs) newSpec w =
      serializeTrailer (replaceSpec fs newSpec) w := by
  have hbody : rebuildBody (serializeTrailer fs v) (entriesOf fs) newSpec =
      serializeEntries (replaceSpec fs newSpec) := by
    rw [entriesOf]
    rw [rebuildBody_blocks (serializeTrailer fs v) newSpec fs.reverse
      (List.replicate 32 0 ++ (u32bytes (totalEntriesLen fs + 72) ++
        (u32bytes v ++ kInsFileSignatureBytes)))
      (by rw [List.reverse_reverse, serializeTrailer]; simp [List.append_assoc])]
    rw [List.reverse_reverse]
  have htotal : rebuildTotal (entriesOf fs) newSpec =
      totalEntriesLen (replaceSpec fs newSpec) := by
    rw [entriesOf, rebuildTotal_discEntries, replaceSpec_reverse,
      totalEntriesLen_reverse]
  rw [rebuildTrailerBytes, hbody, htotal, serializeTrailer]

theorem tagsSpan_append (A B : List SpecTag) :
    tagsSpan (A ++ B) = tagsSpan A + tagsSpan B := by
  simp [tagsSpan]

theorem tagsSpan_cons (t : SpecTag) (L : List SpecTag) :
    tagsSpan (t :: L) = 2 + t.data_size + tagsSpan L := by
  simp [tagsSpan]

theorem foldl_mutateStep_skip (T X : List Nat) :
    ∀ (L : List TrailerEntry) (st : Option (List Nat)),
      (∀ e ∈ L, e.type ≠ 0x0101) →
      L.foldl (mutateStep T X) (some st) = some st := by
  intro L
  induction L with
  | nil => intro st _; rfl
  | cons e L ih =>
    intro st hL
    rw [List.foldl_cons]
    rw [show mutateStep T X (some st) e = some st by
      simp only [mutateStep]
      rw [if_neg (hL e (by simp))]]
    exact ih st (fun u hu => hL u (by simp [hu]))

/-- The driver's per-entry mutation fold: with exactly one specific-info
entry, the kept buffer is that entry's `ins_change_stitching_offset`
output. -/
theorem foldl_mutateStep_unique (T X : List Nat) (A B : List TrailerEntry)
    (e : TrailerEntry) (buf : List Nat) (sz : Int)
    (hA : ∀ u ∈ A, u.type ≠ 0x0101) (hB : ∀ u ∈ B, u.type ≠ 0x0101)
    (he : e.type = 0x0101)
    (hchg : ins_change_stitching_offset (T.drop e.offset_to_data)
      (i32cast e.length) X = some (buf, sz)) :
    (A ++ e :: B).foldl (mutateStep T X) (some none) = some (some buf) := by
  rw [List.foldl_append]
  rw [foldl_mutateStep_skip T X A none hA]
  rw [List.foldl_cons]
  rw [show mutateStep T X (some none) e = some (some buf) by
    simp only [mutateStep]
    rw [if_pos he, hchg]]
  exact foldl_mutateStep_skip T X B (some buf) hB

/-- Length of the rebuilt tag region when exactly one decoded tag is the
stitching-offset tag: the offset tag's value is replaced by `X`, all other
blocks keep their size. -/
theorem serializeTagBlocks_length (q X : List Nat) (ts₁ ts₂ : List SpecTag)
    (t₀ : SpecTag)
    (hno₁ : ∀ u ∈ ts₁, u.type_code ≠ kInsFileSpecificHeaderTagTypeOffset)
    (hno₂ : ∀ u ∈ ts₂, u.type_code ≠ kInsFileSpecificHeaderTagTypeOffset)
    (h₀ : t₀.type_code = kInsFileSpecificHeaderTagTypeOffset) :
    ((((ts₁ ++ t₀ :: ts₂).map (serializeTagBlock q X)).flatten).length) +
      t₀.data_size = tagsSpan (ts₁ ++ t₀ :: ts₂) + X.length := by
  have hlen_no : ∀ (L : List SpecTag),
      (∀ u ∈ L, u.type_code ≠ kInsFileSpecificHeaderTagTypeOffset) →
      ((L.map (serializeTagBlock q X)).flatten).length = tagsSpan L := by
    intro L hL
    rw [List.length_flatten, List.map_map, tagsSpan]
    congr 1
    apply List.map_congr_left
    intro u hu
    simp only [Function.comp_apply, serializeTagBlock, if_neg (hL u hu)]
    simp [readBytes_length]
    omega
  rw [List.map_append, List.flatten_append, List.length_append, hlen_no ts₁ hno₁]
  rw [List.map_cons, List.flatten_cons, List.length_append, hlen_no ts₂ hno₂]
  rw [show (serializeTagBlock q X t₀).length = 2 + X.length by
    simp [serializeTagBlock, if_pos h₀]
    omega]
  rw [tagsSpan_append, tagsSpan_cons]
  omega

/-- Clean replacement run of `ins_change_stitching_offset`: the buffer
pointed to is `p ++ rest` with declared size `p.length`; the decode of `p`
succeeds without cursor overshoot and its tag list contains exactly one
stitching-offset tag, of nonzero size.  The output buffer is the rebuilt tag
region followed by the tail verbatim, and the reported size is
`p.length - old_size + X.length`. -/
theorem ins_change_replace (q p rest X : List Nat) (ts ts₁ ts₂ : List SpecTag)
    (t₀ : SpecTag) (off : Nat) (tsz : Int)
    (hq : q = p ++ rest)
    (hdec : (ins_decode_trailer_specific_header p (p.length : Int)).1 =
      some (ts, off, tsz))
    (hoff : off ≤ p.length)
    (hts : ts = ts₁ ++ t₀ :: ts₂)
    (hno₁ : ∀ u ∈ ts₁, u.type_code ≠ kInsFileSpecificHeaderTagTypeOffset)
    (hno₂ : ∀ u ∈ ts₂, u.type_code ≠ kInsFileSpecificHeaderTagTypeOffset)
    (h₀ : t₀.type_code = kInsFileSpecificHeaderTagTypeOffset)
    (hpos : 0 < t₀.data_size) :
    ins_change_stitching_offset q (p.length : Int) X =
      some ((ts.map (serializeTagBlock q X)).flatten ++
              readBytes q off (p.length - off),
            (p.length : Int) - (t₀.data_size : Int) + (X.length : Int)) := by
  -- decode agrees on the longer buffer
  have hb : ∀ j : Nat, (j : Int) < (p.length : Int) → byteAt p j = byteAt q j := by
    intro j hj
    rw [hq]
    exact (byteAt_append_left p rest j (by exact_mod_cast hj)).symm
  have hdecq : (ins_decode_trailer_specific_header q (p.length : Int)).1 =
      some (ts, off, tsz) :=
    decodeSpecAux_agree p q (p.length : Int) hb 4 0 [] [] [] ts off tsz hdec
      (by exact_mod_cast hoff)
  -- structure of the successful decode
  obtain ⟨new, hnew, _, hoffspan, htsz, _, _, _⟩ :=
    decodeSpecAux_ok q (p.length : Int) 4 0 [] [] ts off tsz hdecq
  simp only [List.nil_append] at hnew
  subst hnew
  -- the find? locates the single offset tag
  have hfind : (ts.find? (fun t =>
      t.type_code = kInsFileSpecificHeaderTagTypeOffset)) = some t₀ := by
    rw [hts]
    exact find?_first _ ts₁ t₀ ts₂
      (fun u hu => by simp [hno₁ u hu])
      (by simp [h₀])
  have hstream_len :
      (((ts.map (serializeTagBlock q X)).flatten).length) + t₀.data_size =
        off + X.length := by
    have := serializeTagBlocks_length q X ts₁ ts₂ t₀ hno₁ hno₂ h₀
    rw [← hts] at this
    omega
  have hd₀ : t₀.data_size ≤ off := by
    have : 2 + t₀.data_size ≤ tagsSpan ts := by
      rw [hts, tagsSpan_append, tagsSpan_cons]
      omega
    omega
  have htoNat : tsz.toNat = p.length - off := by omega
  unfold ins_change_stitching_offset
  rw [hdecq]
  simp only [hfind, Option.map_some', Option.getD_some]
  rw [if_neg (show ¬(tsz < 0) by omega)]
  rw [if_neg (show ¬((p.length : Int) - (t₀.data_size : Int) +
    (X.length : Int) < 0) by omega)]
  rw [if_neg (show ¬(t₀.data_size = 0) by omega)]
  rw [htoNat, List.append_nil]
  have htake : ((ts.map (serializeTagBlock q X)).flatten ++
      readBytes q off (p.length - off)).take
        ((p.length : Int) - (t₀.data_size : Int) + (X.length : Int)).toNat =
      (ts.map (serializeTagBlock q X)).flatten ++
        readBytes q off (p.length - off) := by
    apply List.take_of_length_le
    rw [List.length_append, readBytes_length]
    omega
  rw [htake]
  have hrep : (((p.length : Int) - (t₀.data_size : Int) +
      (X.length : Int)).toNat -
      ((ts.map (serializeTagBlock q X)).flatten ++
        readBytes q off (p.length - off)).length) = 0 := by
    rw [List.length_append, readBytes_length]
    omega
  rw [hrep]
  simp

theorem serializeTrailer_drop_sig (fs : List (Nat × List Nat)) (v : Nat) :
    (serializeTrailer fs v).drop ((serializeTrailer fs v).length - 32) =
      kInsFileSignatureBytes := by
  rw [serializeTrailer_length]
  rw [show serializeTrailer fs v =
    (serializeEntries fs ++ (List.replicate 32 0 ++
      (u32bytes (totalEntriesLen fs + 72) ++ u32bytes v))) ++
      kInsFileSignatureBytes by
    rw [serializeTrailer]
    simp [List.append_assoc]]
  rw [show totalEntriesLen fs + 72 - 32 =
    (serializeEntries fs ++ (List.replicate 32 0 ++
      (u32bytes (totalEntriesLen fs + 72) ++ u32bytes v))).length by
    simp only [List.length_append, serializeEntries_length, List.length_replicate]
    rw [show (u32bytes (totalEntriesLen fs + 72)).length = 4 from rfl,
        show (u32bytes v).length = 4 from rfl]
    omega]
  exact List.drop_left _ _

theorem serializeTrailer_version (fs : List (Nat × List Nat)) (v : Nat)
    (hv : v < 4294967296) :
    readU32LE (serializeTrailer fs v) (totalEntriesLen fs + 72 - 36) = v := by
  rw [show serializeTrailer fs v =
    (serializeEntries fs ++ (List.replicate 32 0 ++
      u32bytes (totalEntriesLen fs + 72))) ++
      (u32bytes v ++ kInsFileSignatureBytes) by
    rw [serializeTrailer]
    simp [List.append_assoc]]
  rw [show totalEntriesLen fs + 72 - 36 =
    (serializeEntries fs ++ (List.replicate 32 0 ++
      u32bytes (totalEntriesLen fs + 72))).length by
    simp only [List.length_append, serializeEntries_length, List.length_replicate]
    rw [show (u32bytes (totalEntriesLen fs + 72)).length = 4 from rfl]
    omega]
  rw [readU32LE_append, readU32LE_u32bytes]
  exact Nat.mod_eq_of_lt hv

theorem serializeTrailer_drop_at (pre : List (Nat × List Nat)) (t : Nat)
    (p : List Nat) (post : List (Nat × List Nat)) (v : Nat) :
    (serializeTrailer (pre ++ [(t, p)] ++ post) v).drop (totalEntriesLen pre) =
      p ++ (entryHdrBytes t p.length ++ (serializeEntries post ++
        (List.replicate 32 0 ++
          (u32bytes (totalEntriesLen (pre ++ [(t, p)] ++ post) + 72) ++
            (u32bytes v ++ kInsFileSignatureBytes))))) := by
  rw [show serializeTrailer (pre ++ [(t, p)] ++ post) v =
    serializeEntries pre ++ (p ++ (entryHdrBytes t p.length ++
      (serializeEntries post ++ (List.replicate 32 0 ++
        (u32bytes (totalEntriesLen (pre ++ [(t, p)] ++ post) + 72) ++
          (u32bytes v ++ kInsFileSignatureBytes)))))) by
    rw [serializeTrailer, serializeEntries_append, serializeEntries_append,
      serializeEntries_cons, serializeEntries_nil]
    simp [List.append_assoc]]
  rw [show totalEntriesLen pre = (serializeEntries pre).length from
    (serializeEntries_length pre).symm]
  exact List.drop_left _ _

theorem replaceSpec_eq_self (pre post : List (Nat × List Nat)) (p : List Nat)
    (htypes : ∀ e ∈ pre ++ post, e.1 ≠ 0x0101) :
    replaceSpec (pre ++ [(0x0101, p)] ++ post) p = pre ++ [(0x0101, p)] ++ post := by
  rw [replaceSpec_append, replaceSpec_append]
  have hid : ∀ L : List (Nat × List Nat), (∀ e ∈ L, e.1 ≠ 0x0101) →
      replaceSpec L p = L := by
    intro L hL
    unfold replaceSpec
    rw [show L.map (fun e => if e.1 = 0x0101 then (e.1, p) else e) = L.map id by
      apply List.map_congr_left
      intro e he
      rw [if_neg (hL e he)]
      rfl]
    exact List.map_id L
  rw [hid pre (fun e he => htypes e (by simp [he]))]
  rw [hid post (fun e he => htypes e (by simp [he]))]
  rw [show replaceSpec [(0x0101, p)] p = [(0x0101, p)] by
    unfold replaceSpec
    simp]

/-- C1 amended: for a well-formed input trailer — the serialization of
forward entries `pre ++ [specific-info entry] ++ post` with zero padding,
matching stored `trailer_len`, and the signature — whose specific-info
payload decodes without cursor overshoot into tags containing exactly one
stitching-offset tag, of *nonzero* size, with value bytes exactly `X`,
rewriting with the byte-identical offset value `X` reproduces the input
trailer byte for byte: same entry order, same entry headers, same payloads,
same zero padding, same trailer header, same signature.  (The claim as
stated also covers a zero-length offset value; `C1_counterexample` shows the
code then takes the insertion path and alters the trailer, so nonzero size
is required.) -/
theorem C1_roundtrip_identity
    (pre post : List (Nat × List Nat)) (p X : List Nat) (v fuel : Nat)
    (ts₁ ts₂ : List SpecTag) (t₀ : SpecTag) (off : Nat) (tsz : Int)
    (htypes : ∀ e ∈ pre ++ post, e.1 < 65536 ∧ e.1 ≠ 0x0101)
    (hlen : totalEntriesLen (pre ++ [(0x0101, p)] ++ post) + 72 < 2147483648)
    (hfuel : (pre ++ [(0x0101, p)] ++ post).length ≤ fuel)
    (hv : v < 4294967296)
    (hp256 : ∀ b ∈ p, b < 256)
    (hdec : (ins_decode_trailer_specific_header p (p.length : Int)).1 =
      some (ts₁ ++ t₀ :: ts₂, off, tsz))
    (hoff : off ≤ p.length)
    (hno₁ : ∀ u ∈ ts₁, u.type_code ≠ kInsFileSpecificHeaderTagTypeOffset)
    (hno₂ : ∀ u ∈ ts₂, u.type_code ≠ kInsFileSpecificHeaderTagTypeOffset)
    (h₀ : t₀.type_code = kInsFileSpecificHeaderTagTypeOffset)
    (hsize : t₀.data_size = X.length)
    (hval : readBytes p (t₀.hdr_offset + 2) t₀.data_size = X)
    (hXne : X ≠ []) :
    run_change_stitching_offset
      (serializeTrailer (pre ++ [(0x0101, p)] ++ post) v) X fuel =
      some (serializeTrailer (pre ++ [(0x0101, p)] ++ post) v) := by
  have hmem : ((0x0101 : Nat), p) ∈ pre ++ [(0x0101, p)] ++ post := by simp
  have htypes' : ∀ e ∈ pre ++ [(0x0101, p)] ++ post, e.1 < 65536 := by
    intro e he
    rcases List.mem_append.mp he with h1 | h1
    · rcases List.mem_append.mp h1 with h2 | h2
      · exact (htypes e (by simp [h2])).1
      · simp only [List.mem_singleton] at h2
        rw [h2]
        omega
    · exact (htypes e (by simp [h1])).1
  have hlen32 : totalEntriesLen (pre ++ [(0x0101, p)] ++ post) + 72 <
      4294967296 := by omega
  have hplen : p.length + 6 ≤ totalEntriesLen (pre ++ [(0x0101, p)] ++ post) :=
    payload_le_totalEntriesLen _ _ hmem
  have hTlen := serializeTrailer_length (pre ++ [(0x0101, p)] ++ post) v
  -- the decoded entry list, with the unique specific-info entry located
  have hrev : (pre ++ [(0x0101, p)] ++ post).reverse =
      post.reverse ++ ((0x0101, p) :: pre.reverse) := by
    simp [List.reverse_append]
  obtain ⟨A, hAeq, hAtypes⟩ :=
    discEntries_append post.reverse ((0x0101, p) :: pre.reverse)
  have hE : entriesOf (pre ++ [(0x0101, p)] ++ post) =
      A ++ (⟨0x0101, p.length, totalEntriesLen pre⟩ :: discEntries pre.reverse) := by
    rw [entriesOf, hrev, hAeq, discEntries_cons, totalEntriesLen_reverse]
  have hA_t : ∀ u ∈ A, u.type ≠ 0x0101 := by
    intro u hu
    have h1 : u.type ∈ post.reverse.map Prod.fst := by
      rw [← hAtypes]
      exact List.mem_map_of_mem _ hu
    obtain ⟨e, he, heq⟩ := List.mem_map.mp h1
    rw [← heq]
    exact (htypes e (by simp [List.mem_reverse.mp he])).2
  have hB_t : ∀ u ∈ discEntries pre.reverse, u.type ≠ 0x0101 := by
    intro u hu
    have h1 : u.type ∈ pre.reverse.map Prod.fst := by
      rw [← discEntries_types]
      exact List.mem_map_of_mem _ hu
    obtain ⟨e, he, heq⟩ := List.mem_map.mp h1
    rw [← heq]
    exact (htypes e (by simp [List.mem_reverse.mp he])).2
  -- the payload slice the driver hands to ins_change_stitching_offset
  have hq := serializeTrailer_drop_at pre 0x0101 p post v
  have hcast : i32cast p.length = (p.length : Int) :=
    i32cast_eq_of_lt p.length (by omega)
  -- facts about the decode of p
  obtain ⟨newp, hnewp, _, hoffp, htszp, _, htagsp, _⟩ :=
    decodeSpecAux_ok p (p.length : Int) 4 0 [] [] _ off tsz hdec
  simp only [List.nil_append] at hnewp
  have ht₀mem : t₀ ∈ ts₁ ++ t₀ :: ts₂ := by simp
  obtain ⟨_, hd₀byte, _, _, ht₀end⟩ := htagsp t₀ (hnewp ▸ ht₀mem)
  have hd₀lt : t₀.data_size < 256 := by
    rw [hd₀byte]
    exact byteAt_lt p _ hp256
  have hXlen : 0 < X.length := by
    cases X with
    | nil => exact absurd rfl hXne
    | cons a l => simp
  -- the replacement run returns the original payload unchanged
  have hchg : ins_change_stitching_offset
      ((serializeTrailer (pre ++ [(0x0101, p)] ++ post) v).drop
        (totalEntriesLen pre))
      (p.length : Int) X = some (p, (p.length : Int)) := by
    have hrepl := ins_change_replace
      ((serializeTrailer (pre ++ [(0x0101, p)] ++ post) v).drop
        (totalEntriesLen pre))
      p _ X (ts₁ ++ t₀ :: ts₂) ts₁ ts₂ t₀ off tsz hq hdec hoff rfl
      hno₁ hno₂ h₀ (by rw [hsize]; exact hXlen)
    -- identify the rebuilt stream with the original payload
    have hb : ∀ j : Nat, (j : Int) < (p.length : Int) →
        byteAt p j =
        byteAt ((serializeTrailer (pre ++ [(0x0101, p)] ++ post) v).drop
          (totalEntriesLen pre)) j := by
      intro j hj
      rw [hq]
      exact (byteAt_append_left p _ j (by exact_mod_cast hj)).symm
    have hdecq : (ins_decode_trailer_specific_header
        ((serializeTrailer (pre ++ [(0x0101, p)] ++ post) v).drop
          (totalEntriesLen pre)) (p.length : Int)).1 =
        some (ts₁ ++ t₀ :: ts₂, off, tsz) :=
      decodeSpecAux_agree p _ (p.length : Int) hb 4 0 [] [] [] _ off tsz hdec
        (by exact_mod_cast hoff)
    obtain ⟨newq, hnewq, _, hoffq, _, _, _, hqblocks⟩ :=
      decodeSpecAux_ok _ (p.length : Int) 4 0 [] [] _ off tsz hdecq
    simp only [List.nil_append] at hnewq
    rw [← hnewq] at hqblocks hoffq
    have hblocks_eq : (ts₁ ++ t₀ :: ts₂).map (serializeTagBlock
        ((serializeTrailer (pre ++ [(0x0101, p)] ++ post) v).drop
          (totalEntriesLen pre)) X) =
        (ts₁ ++ t₀ :: ts₂).map (tagBlock
        ((serializeTrailer (pre ++ [(0x0101, p)] ++ post) v).drop
          (totalEntriesLen pre))) := by
      apply List.map_congr_left
      intro t ht
      by_cases h2a : t.type_code = kInsFileSpecificHeaderTagTypeOffset
      · have ht0 : t = t₀ := by
          rcases List.mem_append.mp ht with h1 | h1
          · exact absurd h2a (hno₁ t h1)
          · rcases List.mem_cons.mp h1 with h2 | h2
            · exact h2
            · exact absurd h2a (hno₂ t h2)
        rw [ht0]
        unfold serializeTagBlock tagBlock
        rw [if_pos h₀]
        have hv1 : X.length % 256 = t₀.data_size := by
          rw [hsize]
          rw [hsize] at hd₀lt
          exact Nat.mod_eq_of_lt hd₀lt
        have hv2 : readBytes ((serializeTrailer (pre ++ [(0x0101, p)] ++ post)
            v).drop (totalEntriesLen pre)) (t₀.hdr_offset + 2) t₀.data_size =
            X := by
          rw [hq, readBytes_append_left p _ (t₀.hdr_offset + 2) t₀.data_size
            (by omega), hval]
        rw [hv1, ← hv2]
      · unfold serializeTagBlock tagBlock
        rw [if_neg h2a]
    rw [hblocks_eq] at hrepl
    rw [hqblocks] at hrepl
    have hspan_off : tagsSpan (ts₁ ++ t₀ :: ts₂) = off := by omega
    rw [hspan_off] at hrepl
    have hjoin : readBytes ((serializeTrailer (pre ++ [(0x0101, p)] ++ post)
        v).drop (totalEntriesLen pre)) 0 off ++
        readBytes ((serializeTrailer (pre ++ [(0x0101, p)] ++ post) v).drop
        (totalEntriesLen pre)) off (p.length - off) = p := by
      have h1 := readBytes_add ((serializeTrailer (pre ++ [(0x0101, p)] ++ post)
        v).drop (totalEntriesLen pre)) 0 off (p.length - off)
      rw [Nat.zero_add] at h1
      rw [← h1]
      rw [show off + (p.length - off) = p.length by omega]
      rw [hq]
      exact readBytes_prefix_all p _
    rw [hjoin] at hrepl
    rw [show ((p.length : Int) - (t₀.data_size : Int) + (X.length : Int)) =
      (p.length : Int) by rw [hsize]; ring] at hrepl
    exact hrepl
  -- assemble the driver run
  unfold run_change_stitching_offset
  rw [if_neg (by
    rw [hTlen, kInsFileMinHeaderLength]
    omega)]
  rw [if_neg (by
    rw [not_ne_iff]
    exact serializeTrailer_drop_sig _ _)]
  rw [hTlen]
  rw [decode_serializeTrailer _ v fuel hfuel htypes' hlen32]
  rw [show tdOk? (TDResult.ok (entriesOf (pre ++ [(0x0101, p)] ++ post))) =
    some (entriesOf (pre ++ [(0x0101, p)] ++ post)) from rfl]
  simp only [Option.some_bind]
  rw [show (entriesOf (pre ++ [(0x0101, p)] ++ post)).foldl
      (mutateStep (serializeTrailer (pre ++ [(0x0101, p)] ++ post) v) X)
      (some none) = some (some p) from by
    rw [hE]
    exact foldl_mutateStep_unique _ X A (discEntries pre.reverse)
      ⟨0x0101, p.length, totalEntriesLen pre⟩ p (p.length : Int)
      hA_t hB_t rfl (by rw [show (⟨0x0101, p.length, totalEntriesLen pre⟩ :
        TrailerEntry).length = p.length from rfl, hcast]; exact hchg)]
  simp only [Option.some_bind, Option.map_some']
  rw [serializeTrailer_version _ v hv]
  rw [rebuildTrailer_serialized _ v v p]
  rw [replaceSpec_eq_self pre post p (fun e he => (htypes e he).2)]

/-- C1 counterexample: the claim as stated fails when the existing
stitching-offset tag has a zero-length value and the byte-identical new
value is the empty string.  On `cx1T` (whose specific-info payload holds
four tags, including a `0x2A` tag of size 0, and a 1-byte tail) the code
treats the zero current size as "tag absent", takes the insertion path, and
produces an output trailer that differs from the input — the rewrite
succeeds but is not byte-identical. -/
theorem C1_counterexample :
    (run_change_stitching_offset cx1T [] 10).isSome = true ∧
    run_change_stitching_offset cx1T [] 10 ≠ some cx1T := by
  refine ⟨by decide, by decide⟩

/-- C1 amended, witness: a two-entry trailer (one unknown entry, one
specific-info entry whose four tags include the 2-byte offset value "BC"
and a 1-byte tail) is reproduced byte-for-byte when rewritten with "BC". -/
theorem C1_roundtrip_identity_witness :
    run_change_stitching_offset rtT [66, 67] 10 = some rtT :=
  C1_roundtrip_identity [(0x0200, [9, 9, 9])] []
    [0x0A, 1, 65, 0x2A, 2, 66, 67, 0x1A, 0, 0x12, 1, 70, 99] [66, 67] 3 10
    [⟨0x0A, 1, 0⟩] [⟨0x1A, 0, 7⟩, ⟨0x12, 1, 9⟩] ⟨0x2A, 2, 3⟩ 12 1
    (by decide) (by decide) (by decide) (by decide) (by decide)
    (by decide) (by decide) (by decide) (by decide) (by decide)
    (by decide) (by decide) (by decide)

/-! ### Re-decoding a rebuilt payload -/

theorem wsLen_nil : wsLen [] = 0 := rfl

theorem wsLen_cons (tc d : Nat) (val : List Nat) (rest : List (Nat × Nat × List Nat)) :
    wsLen ((tc, d, val) :: rest) = 2 + d + wsLen rest := rfl

theorem wsLen_append (a b : List (Nat × Nat × List Nat)) :
    wsLen (a ++ b) = wsLen a + wsLen b := by
  induction a with
  | nil => rw [List.nil_append, wsLen_nil, Nat.zero_add]
  | cons w a ih =>
    rcases w with ⟨tc, d, val⟩
    rw [List.cons_append, wsLen_cons, wsLen_cons, ih]
    omega

theorem serializeWs_nil : serializeWs [] = [] := rfl

theorem serializeWs_cons (tc d : Nat) (val : List Nat)
    (rest : List (Nat × Nat × List Nat)) :
    serializeWs ((tc, d, val) :: rest) = ([tc, d] ++ val) ++ serializeWs rest := rfl

theorem serializeWs_append (a b : List (Nat × Nat × List Nat)) :
    serializeWs (a ++ b) = serializeWs a ++ serializeWs b := by
  induction a with
  | nil => rfl
  | cons w a ih =>
    rcases w with ⟨tc, d, val⟩
    rw [List.cons_append, serializeWs_cons, serializeWs_cons, ih,
      List.append_assoc]
    simp [List.append_assoc]

theorem serializeWs_length (ws : List (Nat × Nat × List Nat))
    (hwf : ∀ w ∈ ws, (w.2.2).length = w.2.1) :
    (serializeWs ws).length = wsLen ws := by
  induction ws with
  | nil => rfl
  | cons w rest ih =>
    rcases w with ⟨tc, d, val⟩
    rw [serializeWs_cons, wsLen_cons, List.length_append]
    rw [ih (fun u hu => hwf u (by simp [hu]))]
    have hv : val.length = d := hwf (tc, d, val) (by simp)
    simp [hv]
    omega

theorem specTagsOf_mem (w : Nat × Nat × List Nat) :
    ∀ (ws₁ ws₂ : List (Nat × Nat × List Nat)) (pos : Nat),
      (⟨w.1, w.2.1, pos + wsLen ws₁⟩ : SpecTag) ∈
        specTagsOf (ws₁ ++ w :: ws₂) pos := by
  intro ws₁
  induction ws₁ with
  | nil =>
    intro ws₂ pos
    rcases w with ⟨tc, d, val⟩
    rw [List.nil_append]
    show _ ∈ specTagsOf ((tc, d, val) :: ws₂) pos
    rw [specTagsOf]
    rw [show pos + wsLen [] = pos from rfl]
    exact List.mem_cons_self _ _
  | cons w' ws₁ ih =>
    intro ws₂ pos
    rcases w' with ⟨tc', d', val'⟩
    rw [List.cons_append, specTagsOf]
    have := ih ws₂ (pos + 2 + d')
    rw [show pos + 2 + d' + wsLen ws₁ = pos + wsLen ((tc', d', val') :: ws₁) by
      rw [wsLen_cons]; omega] at this
    exact List.mem_cons_of_mem _ this

/-- Extract a sub-range from a `readBytes` equation. -/
theorem readBytes_sub (q S : List Nat) (pos N a b : Nat)
    (h : readBytes q pos N = S) (hab : a + b ≤ N) :
    readBytes q (pos + a) b = (S.drop a).take b := by
  have hSlen : S.length = N := by rw [← h, readBytes_length]
  apply List.ext_getElem
  · rw [readBytes_length, List.length_take, List.length_drop]
    omega
  · intro j h1 h2
    rw [readBytes_length] at h1
    rw [List.getElem_take, List.getElem_drop]
    have e1 : (readBytes q (pos + a) b)[j] = byteAt q (pos + a + j) := by
      unfold readBytes byteAt
      simp [List.getD_eq_getElem]
    have e2 : byteAt (readBytes q pos N) (a + j) = byteAt q (pos + (a + j)) :=
      readBytes_getD q pos N (a + j) (by omega)
    rw [h] at e2
    rw [e1, show pos + a + j = pos + (a + j) by omega, ← e2]
    unfold byteAt
    rw [List.getD_eq_getElem S 0 (by omega)]

/-- Decoding a buffer whose bytes from `pos` are the serialization of the
descriptor list `ws` followed by `tail` recovers exactly the tags of `ws`
(provided `ws` fits the 4-tag budget, with tail bytes only when the budget is
fully used). -/
theorem decodeSpecAux_of_serialized (q : List Nat) (s : Int) :
    ∀ (ws : List (Nat × Nat × List Nat)) (tail : List Nat) (fuel pos : Nat)
      (acc : List SpecTag) (reads : List Nat),
      (∀ w ∈ ws, (w.2.2).length = w.2.1) →
      ws.length ≤ fuel →
      (ws.length < fuel → tail = []) →
      (ws = [] → fuel = 0) →
      s = (pos : Int) + (wsLen ws : Int) + (tail.length : Int) →
      readBytes q pos (wsLen ws + tail.length) = serializeWs ws ++ tail →
      (decodeSpecAux q s fuel pos acc reads).1 =
        some (acc ++ specTagsOf ws pos, pos + wsLen ws, (tail.length : Int)) := by
  intro ws
  induction ws with
  | nil =>
    intro tail fuel pos acc reads _ _ _ h4 hs _
    rw [h4 rfl, decodeSpecAux_zero]
    rw [wsLen_nil] at hs
    rw [show specTagsOf [] pos = [] from rfl, List.append_nil,
      show pos + wsLen [] = pos from rfl,
      show s - (pos : Int) = (tail.length : Int) by omega]
  | cons w ws' ih =>
    rcases w with ⟨tc, d, val⟩
    intro tail fuel pos acc reads hwf hfuel hfew h4 hs hcontent
    have hvlen : val.length = d := hwf (tc, d, val) (by simp)
    have hN : wsLen ((tc, d, val) :: ws') + tail.length =
        2 + d + (wsLen ws' + tail.length) := by
      rw [wsLen_cons]
      omega
    have hb0 : byteAt q pos = tc := by
      have e := readBytes_getD q pos (wsLen ((tc, d, val) :: ws') + tail.length)
        0 (by rw [hN]; omega)
      rw [hcontent] at e
      rw [show pos + 0 = pos by omega] at e
      rw [← e, serializeWs_cons]
      simp [byteAt]
    have hb1 : byteAt q (pos + 1) = d := by
      have e := readBytes_getD q pos (wsLen ((tc, d, val) :: ws') + tail.length)
        1 (by rw [hN]; omega)
      rw [hcontent] at e
      rw [← e, serializeWs_cons]
      simp [byteAt]
    cases fuel with
    | zero =>
      rw [List.length_cons] at hfuel
      omega
    | succ n =>
      rw [decodeSpecAux_succ, hb0, hb1]
      rw [if_neg (show ¬((d : Int) > s - (pos : Int)) by
        rw [hs, wsLen_cons]
        push_cast
        omega)]
      by_cases hstop : ((pos + 2 + d : Nat) : Int) ≥ s
      · -- the final tag: ws' and tail must both be empty
        have hws' : wsLen ws' = 0 ∧ tail.length = 0 := by
          rw [hs, wsLen_cons] at hstop
          push_cast at hstop
          constructor <;> omega
        have hws'nil : ws' = [] := by
          cases ws' with
          | nil => rfl
          | cons u rest =>
            rcases u with ⟨a, b, c⟩
            rw [wsLen_cons] at hws'
            omega
        have htailnil : tail = [] := List.length_eq_zero.mp hws'.2
        rw [if_pos hstop]
        subst hws'nil
        subst htailnil
        rw [wsLen_cons, wsLen_nil] at hs
        simp only [specTagsOf, wsLen_cons, wsLen_nil, Option.some.injEq,
          Prod.mk.injEq, List.length_nil]
        refine ⟨?_, ?_, ?_⟩
        · trivial
        · first | trivial | omega
        · simp only [List.length_nil] at hs
          first | trivial | omega
      · rw [if_neg hstop]
        have hcontent' : readBytes q (pos + 2 + d) (wsLen ws' + tail.length) =
            serializeWs ws' ++ tail := by
          have hsplit := readBytes_add q pos (2 + d) (wsLen ws' + tail.length)
          rw [← hN, hcontent, serializeWs_cons] at hsplit
          have hfirst : readBytes q pos (2 + d) = [tc, d] ++ val := by
            have e := readBytes_sub q (serializeWs ((tc, d, val) :: ws') ++ tail)
              pos (wsLen ((tc, d, val) :: ws') + tail.length) 0 (2 + d)
              hcontent (by rw [hN]; omega)
            rw [show pos + 0 = pos from rfl] at e
            rw [e, List.drop_zero, serializeWs_cons, List.append_assoc]
            exact List.take_left'
              (by simp only [List.length_append, List.length_cons,
                List.length_nil, hvlen])
          rw [hfirst,
            List.append_assoc ([tc, d] ++ val) (serializeWs ws') tail] at hsplit
          have hcl := List.append_cancel_left hsplit
          rw [show pos + (2 + d) = pos + 2 + d by omega] at hcl
          exact hcl.symm
        have h4' : ws' = [] → n = 0 := by
          intro hnil
          by_contra hn
          have h1 : ((tc, d, val) :: ws').length < n + 1 := by
            rw [List.length_cons, hnil, List.length_nil]
            omega
          have htail := hfew h1
          rw [hs, wsLen_cons, hnil, wsLen_nil, htail] at hstop
          simp only [List.length_nil] at hstop
          push_cast at hstop
          omega
        have := ih tail n (pos + 2 + d) (acc ++ [⟨tc, d, pos⟩])
          (reads ++ [pos, pos + 1])
          (fun u hu => hwf u (by simp [hu]))
          (by rw [List.length_cons] at hfuel; omega)
          (by intro h1; exact hfew (by rw [List.length_cons]; omega))
          h4'
          (by rw [hs, wsLen_cons]; push_cast; ring)
          hcontent'
        rw [this]
        simp only [specTagsOf, wsLen_cons, Option.some.injEq, Prod.mk.injEq]
        refine ⟨?_, ?_, ?_⟩
        · first | trivial | (rw [List.append_assoc, List.singleton_append])
        · first | trivial | omega
        · trivial

theorem wsOfTags_cons (q X : List Nat) (t : SpecTag) (ts : List SpecTag) :
    wsOfTags q X (t :: ts) =
      (if t.type_code = kInsFileSpecificHeaderTagTypeOffset then
        (t.type_code, X.length % 256, X)
      else (t.type_code, t.data_size,
        readBytes q (t.hdr_offset + 2) t.data_size)) :: wsOfTags q X ts := by
  simp [wsOfTags]

theorem wsOfTags_append (q X : List Nat) (a b : List SpecTag) :
    wsOfTags q X (a ++ b) = wsOfTags q X a ++ wsOfTags q X b := by
  simp [wsOfTags]

/-- The serialization of the rewritten descriptor list is exactly the byte
stream `ins_change_stitching_offset` emits for the decoded tags. -/
theorem serializeWs_wsOfTags (q X : List Nat) (ts : List SpecTag) :
    serializeWs (wsOfTags q X ts) =
      ((ts.map (serializeTagBlock q X)).flatten) := by
  induction ts with
  | nil => rfl
  | cons t ts ih =>
    rw [wsOfTags_cons, List.map_cons, List.flatten_cons]
    by_cases h : t.type_code = kInsFileSpecificHeaderTagTypeOffset
    · rw [if_pos h, serializeWs_cons, ih]
      simp only [serializeTagBlock, if_pos h]
    · rw [if_neg h, serializeWs_cons, ih]
      simp only [serializeTagBlock, if_neg h]

/-- Every descriptor in the rewritten list carries exactly as many value
bytes as its size byte declares, provided the new value fits one byte. -/
theorem wsOfTags_wf (q X : List Nat) (ts : List SpecTag)
    (hX : X.length < 256) :
    ∀ w ∈ wsOfTags q X ts, (w.2.2).length = w.2.1 := by
  intro w hw
  rw [wsOfTags] at hw
  obtain ⟨t, _, heq⟩ := List.mem_map.mp hw
  by_cases h : t.type_code = kInsFileSpecificHeaderTagTypeOffset
  · rw [if_pos h] at heq
    rw [← heq]
    simp [Nat.mod_eq_of_lt hX]
  · rw [if_neg h] at heq
    rw [← heq]
    simp [readBytes_length]

theorem specTagsOf_append (a b : List (Nat × Nat × List Nat)) :
    ∀ pos, specTagsOf (a ++ b) pos =
      specTagsOf a pos ++ specTagsOf b (pos + wsLen a) := by
  induction a with
  | nil =>
    intro pos
    rw [List.nil_append, show specTagsOf [] pos = [] from rfl,
      List.nil_append, show pos + wsLen [] = pos from rfl]
  | cons w a ih =>
    rcases w with ⟨tc, d, val⟩
    intro pos
    rw [List.cons_append]
    show (⟨tc, d, pos⟩ : SpecTag) :: specTagsOf (a ++ b) (pos + 2 + d) = _
    rw [ih (pos + 2 + d), specTagsOf, wsLen_cons, List.cons_append]
    rw [show pos + 2 + d + wsLen a = pos + (2 + d + wsLen a) by omega]

/-- The type codes of the re-decoded tags are the descriptors' type bytes. -/
theorem specTagsOf_types :
    ∀ (L : List (Nat × Nat × List Nat)),
      (∀ w ∈ L, w.1 ≠ kInsFileSpecificHeaderTagTypeOffset) →
      ∀ (pos : Nat), ∀ t ∈ specTagsOf L pos,
        t.type_code ≠ kInsFileSpecificHeaderTagTypeOffset := by
  intro L
  induction L with
  | nil =>
    intro _ pos t ht
    exact absurd ht (List.not_mem_nil t)
  | cons w L ih =>
    rcases w with ⟨tc, d, val⟩
    intro hL pos t ht
    rw [show specTagsOf ((tc, d, val) :: L) pos =
      (⟨tc, d, pos⟩ : SpecTag) :: specTagsOf L (pos + 2 + d) from rfl] at ht
    rcases List.mem_cons.mp ht with h | h
    · rw [h]
      exact hL (tc, d, val) (by simp)
    · exact ih (fun x hx => hL x (by simp [hx])) _ t h

/-- The descriptors rewritten from non-offset tags keep non-offset type
bytes. -/
theorem wsOfTags_types (q X : List Nat) (L : List SpecTag)
    (hL : ∀ u ∈ L, u.type_code ≠ kInsFileSpecificHeaderTagTypeOffset) :
    ∀ w ∈ wsOfTags q X L, w.1 ≠ kInsFileSpecificHeaderTagTypeOffset := by
  intro w hw
  rw [wsOfTags] at hw
  obtain ⟨t, ht, heq⟩ := List.mem_map.mp hw
  rw [if_neg (hL t ht)] at heq
  rw [← heq]
  exact hL t ht

/-- A filter that rejects everything left and right of a single accepted
element keeps exactly that element. -/
theorem filter_unique {α : Type} (pred : α → Bool) (A B : List α) (e : α)
    (hA : ∀ u ∈ A, ¬pred u = true) (hB : ∀ u ∈ B, ¬pred u = true)
    (he : pred e = true) :
    (A ++ e :: B).filter pred = [e] := by
  rw [List.filter_append]
  rw [List.filter_eq_nil_iff.mpr hA, List.nil_append]
  rw [List.filter_cons_of_pos he]
  rw [List.filter_eq_nil_iff.mpr hB]

/-- `replaceSpec` on a list with a single specific-info entry swaps exactly
that entry's payload. -/
theorem replaceSpec_at (pre post : List (Nat × List Nat)) (p ns : List Nat)
    (htypes : ∀ e ∈ pre ++ post, e.1 ≠ 0x0101) :
    replaceSpec (pre ++ [(0x0101, p)] ++ post) ns =
      pre ++ [(0x0101, ns)] ++ post := by
  rw [replaceSpec_append, replaceSpec_append]
  have hid : ∀ L : List (Nat × List Nat), (∀ e ∈ L, e.1 ≠ 0x0101) →
      replaceSpec L ns = L := by
    intro L hL
    unfold replaceSpec
    rw [show L.map (fun e => if e.1 = 0x0101 then (e.1, ns) else e) =
        L.map id by
      apply List.map_congr_left
      intro e he
      rw [if_neg (hL e he)]
      rfl]
    exact List.map_id L
  rw [hid pre (fun e he => htypes e (by simp [he]))]
  rw [hid post (fun e he => htypes e (by simp [he]))]
  rw [show replaceSpec [(0x0101, p)] ns = [(0x0101, ns)] by
    unfold replaceSpec
    simp]

/-- Reading back a rewritten trailer whose unique specific-info payload is
the serialization of descriptors `ws₁ ++ offset-descriptor :: ws₂` (with the
new value `X`) followed by a tail `tb`: the reader finds exactly the offset
tag, with declared size `X.length` and value bytes exactly `X`. -/
theorem offsetTagValues_rebuilt
    (pre post : List (Nat × List Nat)) (buf X tb : List Nat) (v fuel : Nat)
    (ws₁ ws₂ : List (Nat × Nat × List Nat))
    (htypes : ∀ e ∈ pre ++ post, e.1 < 65536 ∧ e.1 ≠ 0x0101)
    (hlen32 : totalEntriesLen (pre ++ [(0x0101, buf)] ++ post) + 72 <
      4294967296)
    (hbuf31 : buf.length < 2147483648)
    (hfuel : (pre ++ [(0x0101, buf)] ++ post).length ≤ fuel)
    (hbuf : buf = serializeWs (ws₁ ++
      (kInsFileSpecificHeaderTagTypeOffset, X.length % 256, X) :: ws₂) ++ tb)
    (hX : X.length < 256)
    (hwf : ∀ w ∈ ws₁ ++
      (kInsFileSpecificHeaderTagTypeOffset, X.length % 256, X) :: ws₂,
      (w.2.2).length = w.2.1)
    (hws4 : ws₁.length + 1 + ws₂.length ≤ 4)
    (htb : ws₁.length + 1 + ws₂.length < 4 → tb = [])
    (hno₁ : ∀ w ∈ ws₁, w.1 ≠ kInsFileSpecificHeaderTagTypeOffset)
    (hno₂ : ∀ w ∈ ws₂, w.1 ≠ kInsFileSpecificHeaderTagTypeOffset) :
    offsetTagValuesOfTrailer
      (serializeTrailer (pre ++ [(0x0101, buf)] ++ post) v) fuel =
      some [(X.length, X)] := by
  have hT'len := serializeTrailer_length (pre ++ [(0x0101, buf)] ++ post) v
  have htypes' : ∀ e ∈ pre ++ [(0x0101, buf)] ++ post, e.1 < 65536 := by
    intro e he
    rcases List.mem_append.mp he with h1 | h1
    · rcases List.mem_append.mp h1 with h2 | h2
      · exact (htypes e (by simp [h2])).1
      · simp only [List.mem_singleton] at h2
        rw [h2]
        omega
    · exact (htypes e (by simp [h1])).1
  -- the entry walk of the rewritten trailer
  have hrev : (pre ++ [(0x0101, buf)] ++ post).reverse =
      post.reverse ++ ((0x0101, buf) :: pre.reverse) := by
    simp [List.reverse_append]
  obtain ⟨A, hAeq, hAtypes⟩ :=
    discEntries_append post.reverse ((0x0101, buf) :: pre.reverse)
  have hE : entriesOf (pre ++ [(0x0101, buf)] ++ post) =
      A ++ (⟨0x0101, buf.length, totalEntriesLen pre⟩ ::
        discEntries pre.reverse) := by
    rw [entriesOf, hrev, hAeq, discEntries_cons, totalEntriesLen_reverse]
  have hA_t : ∀ u ∈ A, u.type ≠ 0x0101 := by
    intro u hu
    have h1 : u.type ∈ post.reverse.map Prod.fst := by
      rw [← hAtypes]
      exact List.mem_map_of_mem _ hu
    obtain ⟨e, he, heq⟩ := List.mem_map.mp h1
    rw [← heq]
    exact (htypes e (by simp [List.mem_reverse.mp he])).2
  have hB_t : ∀ u ∈ discEntries pre.reverse, u.type ≠ 0x0101 := by
    intro u hu
    have h1 : u.type ∈ pre.reverse.map Prod.fst := by
      rw [← discEntries_types]
      exact List.mem_map_of_mem _ hu
    obtain ⟨e, he, heq⟩ := List.mem_map.mp h1
    rw [← heq]
    exact (htypes e (by simp [List.mem_reverse.mp he])).2
  -- length bookkeeping for the rebuilt payload
  have hwflen : (serializeWs (ws₁ ++
      (kInsFileSpecificHeaderTagTypeOffset, X.length % 256, X) :: ws₂)).length =
      wsLen (ws₁ ++
        (kInsFileSpecificHeaderTagTypeOffset, X.length % 256, X) :: ws₂) :=
    serializeWs_length _ hwf
  have hlenbuf : buf.length = wsLen (ws₁ ++
      (kInsFileSpecificHeaderTagTypeOffset, X.length % 256, X) :: ws₂) +
      tb.length := by
    rw [hbuf, List.length_append, hwflen]
  -- the payload slice the reader decodes
  have hq' := serializeTrailer_drop_at pre 0x0101 buf post v
  have hcastb : i32cast buf.length = (buf.length : Int) :=
    i32cast_eq_of_lt _ (by omega)
  have hread : readBytes ((serializeTrailer (pre ++ [(0x0101, buf)] ++ post)
      v).drop (totalEntriesLen pre)) 0
      (wsLen (ws₁ ++
        (kInsFileSpecificHeaderTagTypeOffset, X.length % 256, X) :: ws₂) +
        tb.length) =
      serializeWs (ws₁ ++
        (kInsFileSpecificHeaderTagTypeOffset, X.length % 256, X) :: ws₂) ++
        tb := by
    rw [show wsLen (ws₁ ++
        (kInsFileSpecificHeaderTagTypeOffset, X.length % 256, X) :: ws₂) +
        tb.length = buf.length from hlenbuf.symm]
    rw [hq']
    rw [readBytes_prefix_all buf _]
    exact hbuf
  have hdecq' := decodeSpecAux_of_serialized
    ((serializeTrailer (pre ++ [(0x0101, buf)] ++ post) v).drop
      (totalEntriesLen pre))
    ((buf.length : Nat) : Int)
    (ws₁ ++ (kInsFileSpecificHeaderTagTypeOffset, X.length % 256, X) :: ws₂)
    tb 4 0 [] [] hwf
    (by rw [List.length_append, List.length_cons]; omega)
    (by intro h
        rw [List.length_append, List.length_cons] at h
        exact htb (by omega))
    (by intro h; exact absurd h (by simp))
    (by rw [hlenbuf]; push_cast; ring)
    hread
  have hdecq2 : (ins_decode_trailer_specific_header
      ((serializeTrailer (pre ++ [(0x0101, buf)] ++ post) v).drop
        (totalEntriesLen pre)) ((buf.length : Nat) : Int)).1 =
      some (specTagsOf (ws₁ ++
          (kInsFileSpecificHeaderTagTypeOffset, X.length % 256, X) :: ws₂) 0,
        0 + wsLen (ws₁ ++
          (kInsFileSpecificHeaderTagTypeOffset, X.length % 256, X) :: ws₂),
        (tb.length : Int)) := by
    rw [show (ins_decode_trailer_specific_header
        ((serializeTrailer (pre ++ [(0x0101, buf)] ++ post) v).drop
          (totalEntriesLen pre)) ((buf.length : Nat) : Int)).1 =
      (decodeSpecAux
        ((serializeTrailer (pre ++ [(0x0101, buf)] ++ post) v).drop
          (totalEntriesLen pre)) ((buf.length : Nat) : Int) 4 0 [] []).1
      from rfl]
    rw [hdecq']
    rw [List.nil_append]
  -- the single offset tag among the re-decoded tags
  have hsplitTags := specTagsOf_append ws₁
    ((kInsFileSpecificHeaderTagTypeOffset, X.length % 256, X) :: ws₂) 0
  have hws₁wf : ∀ w ∈ ws₁, (w.2.2).length = w.2.1 :=
    fun w hw => hwf w (by simp [hw])
  have hws₁len : (serializeWs ws₁).length = wsLen ws₁ :=
    serializeWs_length ws₁ hws₁wf
  have hval' : readBytes ((serializeTrailer (pre ++ [(0x0101, buf)] ++ post)
      v).drop (totalEntriesLen pre)) (0 + wsLen ws₁ + 2) (X.length % 256) =
      X := by
    have e := readBytes_sub
      ((serializeTrailer (pre ++ [(0x0101, buf)] ++ post) v).drop
        (totalEntriesLen pre))
      (serializeWs (ws₁ ++
        (kInsFileSpecificHeaderTagTypeOffset, X.length % 256, X) :: ws₂) ++ tb)
      0
      (wsLen (ws₁ ++
        (kInsFileSpecificHeaderTagTypeOffset, X.length % 256, X) :: ws₂) +
        tb.length)
      (wsLen ws₁ + 2) X.length hread
      (by rw [wsLen_append, wsLen_cons, Nat.mod_eq_of_lt hX]; omega)
    rw [Nat.zero_add] at e
    rw [Nat.zero_add, Nat.mod_eq_of_lt hX, e]
    rw [show serializeWs (ws₁ ++
        (kInsFileSpecificHeaderTagTypeOffset, X.length % 256, X) :: ws₂) ++
        tb =
      (serializeWs ws₁ ++
        [kInsFileSpecificHeaderTagTypeOffset, X.length % 256]) ++
        (X ++ (serializeWs ws₂ ++ tb)) by
      rw [serializeWs_append, serializeWs_cons]
      simp [List.append_assoc]]
    rw [List.drop_left' (by rw [List.length_append, hws₁len]; rfl)]
    rw [List.take_left' rfl]
  -- assemble the reader run
  unfold offsetTagValuesOfTrailer
  rw [hT'len]
  rw [decode_serializeTrailer _ v fuel hfuel htypes' hlen32]
  rw [show tdOk? (TDResult.ok (entriesOf (pre ++ [(0x0101, buf)] ++ post))) =
    some (entriesOf (pre ++ [(0x0101, buf)] ++ post)) from rfl]
  simp only [Option.some_bind]
  rw [hE]
  rw [filter_unique _ A (discEntries pre.reverse)
    ⟨0x0101, buf.length, totalEntriesLen pre⟩
    (fun u hu => by simp [hA_t u hu])
    (fun u hu => by simp [hB_t u hu])
    (by simp)]
  rw [List.foldl_cons, List.foldl_nil]
  simp only [Option.some_bind]
  rw [hcastb, hdecq2]
  simp only [Option.map_some']
  rw [hsplitTags]
  rw [show specTagsOf ((kInsFileSpecificHeaderTagTypeOffset,
      X.length % 256, X) :: ws₂) (0 + wsLen ws₁) =
    (⟨kInsFileSpecificHeaderTagTypeOffset, X.length % 256,
      0 + wsLen ws₁⟩ : SpecTag) ::
      specTagsOf ws₂ (0 + wsLen ws₁ + 2 + X.length % 256) from rfl]
  rw [filter_unique _ (specTagsOf ws₁ 0)
    (specTagsOf ws₂ (0 + wsLen ws₁ + 2 + X.length % 256))
    (⟨kInsFileSpecificHeaderTagTypeOffset, X.length % 256,
      0 + wsLen ws₁⟩ : SpecTag)
    (fun u hu => by simp [specTagsOf_types ws₁ hno₁ 0 u hu])
    (fun u hu => by simp [specTagsOf_types ws₂ hno₂ _ u hu])
    (by simp)]
  rw [List.map_cons, List.map_nil]
  rw [show (⟨kInsFileSpecificHeaderTagTypeOffset, X.length % 256,
      0 + wsLen ws₁⟩ : SpecTag).data_size = X.length % 256 from rfl,
    show (⟨kInsFileSpecificHeaderTagTypeOffset, X.length % 256,
      0 + wsLen ws₁⟩ : SpecTag).hdr_offset = 0 + wsLen ws₁ from rfl]
  rw [hval']
  rw [Nat.mod_eq_of_lt hX, List.nil_append]

/-- C7 counterexample: an input file accepted by the rewrite on which the
claim fails.  `cx7T` is a well-formed trailer whose specific-info payload
holds a single serial tag and no stitching-offset tag; rewriting with
`X = "BC"` succeeds (the code takes its insertion path), but the appended
tag's value bytes are cut off by the under-sized output buffer.  Re-decoding
the output finds the stitching-offset tag with declared size 2 — yet its
value bytes, as the reader extracts them, are the two adjacent entry-header
bytes `[1, 1]`, not the bytes of `X`. -/
theorem C7_counterexample :
    ((run_change_stitching_offset cx7T [66, 67] 10).bind
      (fun T2 => offsetTagValuesOfTrailer T2 10)) = some [(2, [1, 1])] ∧
    ([1, 1] : List Nat) ≠ [66, 67] := by
  refine ⟨by decide, by decide⟩

/-- C7 amended: the claim holds for rewrites that take the replacement path.
For a well-formed input trailer (serialized entries with exactly one
specific-info entry, zero padding, matching stored `trailer_len`, signature)
whose specific-info payload decodes without cursor overshoot into tags
containing exactly one stitching-offset tag of *nonzero* declared size, and
a new value `X` of fewer than 256 bytes, the rewrite succeeds and re-decoding
the output trailer's specific-info entry finds exactly one stitching-offset
tag, whose declared `data_size` is `X.length` and whose value bytes are
byte-exactly `X` — no truncation, no padding.  (The nonzero-size restriction
excludes the insertion path, where `C7_counterexample` shows the value is
truncated; the 256-byte bound reflects the `uint8_t` size field.) -/
theorem C7_offset_reread
    (pre post : List (Nat × List Nat)) (p X : List Nat) (v fuel : Nat)
    (ts₁ ts₂ : List SpecTag) (t₀ : SpecTag) (off : Nat) (tsz : Int)
    (htypes : ∀ e ∈ pre ++ post, e.1 < 65536 ∧ e.1 ≠ 0x0101)
    (hlen : totalEntriesLen (pre ++ [(0x0101, p)] ++ post) + 72 + 256 <
      2147483648)
    (hfuel : (pre ++ [(0x0101, p)] ++ post).length ≤ fuel)
    (hv : v < 4294967296)
    (hdec : (ins_decode_trailer_specific_header p (p.length : Int)).1 =
      some (ts₁ ++ t₀ :: ts₂, off, tsz))
    (hoff : off ≤ p.length)
    (hno₁ : ∀ u ∈ ts₁, u.type_code ≠ kInsFileSpecificHeaderTagTypeOffset)
    (hno₂ : ∀ u ∈ ts₂, u.type_code ≠ kInsFileSpecificHeaderTagTypeOffset)
    (h₀ : t₀.type_code = kInsFileSpecificHeaderTagTypeOffset)
    (hpos : 0 < t₀.data_size)
    (hX : X.length < 256) :
    ∃ T', run_change_stitching_offset
        (serializeTrailer (pre ++ [(0x0101, p)] ++ post) v) X fuel =
        some T' ∧
      offsetTagValuesOfTrailer T' fuel = some [(X.length, X)] := by
  have hmem : ((0x0101 : Nat), p) ∈ pre ++ [(0x0101, p)] ++ post := by simp
  have htypes' : ∀ e ∈ pre ++ [(0x0101, p)] ++ post, e.1 < 65536 := by
    intro e he
    rcases List.mem_append.mp he with h1 | h1
    · rcases List.mem_append.mp h1 with h2 | h2
      · exact (htypes e (by simp [h2])).1
      · simp only [List.mem_singleton] at h2
        rw [h2]
        omega
    · exact (htypes e (by simp [h1])).1
  have hlen32 : totalEntriesLen (pre ++ [(0x0101, p)] ++ post) + 72 <
      4294967296 := by omega
  have hplen : p.length + 6 ≤ totalEntriesLen (pre ++ [(0x0101, p)] ++ post) :=
    payload_le_totalEntriesLen _ _ hmem
  have hTlen := serializeTrailer_length (pre ++ [(0x0101, p)] ++ post) v
  have htot : ∀ m : List Nat, totalEntriesLen (pre ++ [(0x0101, m)] ++ post) =
      totalEntriesLen pre + (m.length + 6) + totalEntriesLen post := by
    intro m
    rw [totalEntriesLen_append, totalEntriesLen_append, totalEntriesLen_cons,
      totalEntriesLen_nil]
  -- the decoded entry list of the input, with the specific-info entry located
  have hrev : (pre ++ [(0x0101, p)] ++ post).reverse =
      post.reverse ++ ((0x0101, p) :: pre.reverse) := by
    simp [List.reverse_append]
  obtain ⟨A, hAeq, hAtypes⟩ :=
    discEntries_append post.reverse ((0x0101, p) :: pre.reverse)
  have hE : entriesOf (pre ++ [(0x0101, p)] ++ post) =
      A ++ (⟨0x0101, p.length, totalEntriesLen pre⟩ ::
        discEntries pre.reverse) := by
    rw [entriesOf, hrev, hAeq, discEntries_cons, totalEntriesLen_reverse]
  have hA_t : ∀ u ∈ A, u.type ≠ 0x0101 := by
    intro u hu
    have h1 : u.type ∈ post.reverse.map Prod.fst := by
      rw [← hAtypes]
      exact List.mem_map_of_mem _ hu
    obtain ⟨e, he, heq⟩ := List.mem_map.mp h1
    rw [← heq]
    exact (htypes e (by simp [List.mem_reverse.mp he])).2
  have hB_t : ∀ u ∈ discEntries pre.reverse, u.type ≠ 0x0101 := by
    intro u hu
    have h1 : u.type ∈ pre.reverse.map Prod.fst := by
      rw [← discEntries_types]
      exact List.mem_map_of_mem _ hu
    obtain ⟨e, he, heq⟩ := List.mem_map.mp h1
    rw [← heq]
    exact (htypes e (by simp [List.mem_reverse.mp he])).2
  -- the payload slice the driver hands to ins_change_stitching_offset
  obtain ⟨q, hqdef⟩ : ∃ r : List Nat,
      r = (serializeTrailer (pre ++ [(0x0101, p)] ++ post) v).drop
        (totalEntriesLen pre) := ⟨_, rfl⟩
  have hq := serializeTrailer_drop_at pre 0x0101 p post v
  rw [← hqdef] at hq
  have hcast : i32cast p.length = (p.length : Int) :=
    i32cast_eq_of_lt p.length (by omega)
  -- facts about the decode of p
  obtain ⟨newp, hnewp, hlen4, hoffp, htszp, hexh, htagsp, _⟩ :=
    decodeSpecAux_ok p (p.length : Int) 4 0 [] [] _ off tsz hdec
  simp only [List.nil_append] at hnewp
  have hspan : tagsSpan (ts₁ ++ t₀ :: ts₂) = off := by
    rw [hnewp]
    omega
  have hd₀off : 2 + t₀.data_size ≤ off := by
    have h1 := tagsSpan_append ts₁ (t₀ :: ts₂)
    have h2 := tagsSpan_cons t₀ ts₂
    omega
  -- the replacement run and its output buffer
  have hchg := ins_change_replace q p _ X (ts₁ ++ t₀ :: ts₂) ts₁ ts₂ t₀ off tsz
    hq hdec hoff rfl hno₁ hno₂ h₀ hpos
  obtain ⟨tb, htbdef⟩ : ∃ b : List Nat,
      b = readBytes q off (p.length - off) := ⟨_, rfl⟩
  rw [← htbdef] at hchg
  obtain ⟨buf, hbufdef⟩ : ∃ b : List Nat,
      b = ((ts₁ ++ t₀ :: ts₂).map (serializeTagBlock q X)).flatten ++ tb :=
    ⟨_, rfl⟩
  rw [← hbufdef] at hchg
  have hblen := serializeTagBlocks_length q X ts₁ ts₂ t₀ hno₁ hno₂ h₀
  have hbuflen : buf.length = p.length - t₀.data_size + X.length := by
    rw [hbufdef, List.length_append, htbdef, readBytes_length]
    omega
  -- the driver run
  have hrun : run_change_stitching_offset
      (serializeTrailer (pre ++ [(0x0101, p)] ++ post) v) X fuel =
      some (serializeTrailer (pre ++ [(0x0101, buf)] ++ post) v) := by
    unfold run_change_stitching_offset
    rw [if_neg (by
      rw [hTlen, kInsFileMinHeaderLength]
      omega)]
    rw [if_neg (by
      rw [not_ne_iff]
      exact serializeTrailer_drop_sig _ _)]
    rw [hTlen]
    rw [decode_serializeTrailer _ v fuel hfuel htypes' hlen32]
    rw [show tdOk? (TDResult.ok (entriesOf (pre ++ [(0x0101, p)] ++ post))) =
      some (entriesOf (pre ++ [(0x0101, p)] ++ post)) from rfl]
    simp only [Option.some_bind]
    rw [show (entriesOf (pre ++ [(0x0101, p)] ++ post)).foldl
        (mutateStep (serializeTrailer (pre ++ [(0x0101, p)] ++ post) v) X)
        (some none) = some (some buf) from by
      rw [hE]
      exact foldl_mutateStep_unique _ X A (discEntries pre.reverse)
        ⟨0x0101, p.length, totalEntriesLen pre⟩ buf _
        hA_t hB_t rfl (by
          rw [show (⟨0x0101, p.length, totalEntriesLen pre⟩ :
            TrailerEntry).length = p.length from rfl, hcast,
            show (⟨0x0101, p.length, totalEntriesLen pre⟩ :
              TrailerEntry).offset_to_data = totalEntriesLen pre from rfl,
            ← hqdef]
          exact hchg)]
    simp only [Option.some_bind, Option.map_some']
    rw [serializeTrailer_version _ v hv]
    rw [rebuildTrailer_serialized _ v v buf]
    rw [replaceSpec_at pre post p buf (fun e he => (htypes e he).2)]
  -- descriptors of the rebuilt payload
  have hwsall : wsOfTags q X (ts₁ ++ t₀ :: ts₂) =
      wsOfTags q X ts₁ ++ (kInsFileSpecificHeaderTagTypeOffset,
        X.length % 256, X) :: wsOfTags q X ts₂ := by
    rw [wsOfTags_append, wsOfTags_cons, if_pos h₀, h₀]
  have hbuf' : buf = serializeWs (wsOfTags q X ts₁ ++
      (kInsFileSpecificHeaderTagTypeOffset, X.length % 256, X) ::
        wsOfTags q X ts₂) ++ tb := by
    rw [← hwsall, serializeWs_wsOfTags, hbufdef]
  have hwf' := wsOfTags_wf q X (ts₁ ++ t₀ :: ts₂) hX
  rw [hwsall] at hwf'
  have hl4 : (ts₁ ++ t₀ :: ts₂).length ≤ 4 := by
    rw [hnewp]
    exact hlen4
  rw [List.length_append, List.length_cons] at hl4
  have hws4' : (wsOfTags q X ts₁).length + 1 + (wsOfTags q X ts₂).length
      ≤ 4 := by
    simp only [wsOfTags, List.length_map]
    omega
  have htb' : (wsOfTags q X ts₁).length + 1 + (wsOfTags q X ts₂).length < 4 →
      tb = [] := by
    intro h
    simp only [wsOfTags, List.length_map] at h
    have h3 := hexh (by
      rw [← hnewp, List.length_append, List.length_cons]
      omega)
    have h5 : p.length ≤ off := by exact_mod_cast h3
    rw [htbdef, show p.length - off = 0 by omega]
    exact readBytes_zero q off
  -- bounds for the rewritten trailer
  have hlen32' : totalEntriesLen (pre ++ [(0x0101, buf)] ++ post) + 72 <
      4294967296 := by
    have h1 := htot p
    have h2 := htot buf
    omega
  have hbuf31 : buf.length < 2147483648 := by omega
  have hfuel' : (pre ++ [(0x0101, buf)] ++ post).length ≤ fuel := by
    simp only [List.length_append, List.length_cons, List.length_nil]
      at hfuel ⊢
    omega
  refine ⟨_, hrun, ?_⟩
  exact offsetTagValues_rebuilt pre post buf X tb v fuel
    (wsOfTags q X ts₁) (wsOfTags q X ts₂)
    htypes hlen32' hbuf31 hfuel' hbuf' hX hwf' hws4' htb'
    (wsOfTags_types q X ts₁ hno₁) (wsOfTags_types q X ts₂ hno₂)

/-- C7 amended, witness: on the two-entry trailer `rtT` (one unknown entry,
one specific-info entry whose four tags include a 2-byte stitching-offset
value), rewriting with the 3-byte value "XYZ" succeeds, and re-decoding the
output finds exactly the offset tag with size 3 and value bytes `XYZ`. -/
theorem C7_offset_reread_witness :
    ∃ T', run_change_stitching_offset rtT [88, 89, 90] 10 = some T' ∧
      offsetTagValuesOfTrailer T' 10 = some [(3, [88, 89, 90])] :=
  C7_offset_reread [(0x0200, [9, 9, 9])] [] [0x0A, 1, 65, 0x2A, 2, 66, 67,
      0x1A, 0, 0x12, 1, 70, 99] [88, 89, 90] 3 10
    [⟨0x0A, 1, 0⟩] [⟨0x1A, 0, 7⟩, ⟨0x12, 1, 9⟩] ⟨0x2A, 2, 3⟩ 12 1
    (by decide) (by decide) (by decide) (by decide) (by decide) (by decide)
    (by decide) (by decide) (by decide) (by decide) (by decide)

end InsFileTool
